import Mathlib

/-!
Verification development for the Bishops four-player chess-variant engine
(`Bishops_Golden_backup_20251113.py`).  The Python source is shallowly
embedded: the mutable `Board`/`GameState` objects become explicit values
threaded through functions, Python `int` coordinates become `ℤ`, and each
embedded definition keeps the name and control flow of the source function
it models.

Modelling conventions:
* A Python `Piece` object is a record; object identity is modelled by the
  `pid` field, which no operation ever changes (moves transfer the record,
  promotion/flag updates rewrite `kind`/`hasMoved` in place, keeping `pid`).
* The board's per-seat king-position cache is modelled away: `Board.set`
  keeps every cache entry either `None` or pointing at a genuine king of
  that seat, and every read (`find_king`, the attacker list in
  `king_in_check`) validates or falls back to a scan, so the cache is
  observationally equivalent to a fresh scan.  `findKing` is therefore the
  scan.
* `_position_key` hashes a canonical string with sha1; the embedding uses
  the hash preimage (the serialised placements/flags) as the key itself.
* The rendering-only `tint_override` attribute of `Piece` is not modelled.
-/

namespace Bishops

/-- The four seats, `PColor` in the source. -/
inductive PColor where
  | WHITE | GREY | BLACK | PINK
deriving DecidableEq, Repr

open PColor

deriving instance Fintype for PColor

/-- `TURN_ORDER = [WHITE, GREY, BLACK, PINK]`. -/
def TURN_ORDER : List PColor := [WHITE, GREY, BLACK, PINK]

/-- `TURN_ORDER.index(c)`. -/
def colorIndex : PColor → ℕ
  | WHITE => 0 | GREY => 1 | BLACK => 2 | PINK => 3

/-- `TURN_ORDER[i % 4]`. -/
def turnOrderAt (i : ℕ) : PColor :=
  match i % 4 with
  | 0 => WHITE | 1 => GREY | 2 => BLACK | _ => PINK

/-- Piece kinds `'K','Q','R','B','N','P'`. -/
inductive Kind where
  | K | Q | R | B | N | P
deriving DecidableEq, Repr

/-- A `Piece` object: kind, owner seat, has-moved flag, plus `pid`
modelling Python object identity. -/
structure Piece where
  kind : Kind
  color : PColor
  hasMoved : Bool
  pid : ℕ
deriving DecidableEq, Repr

/-- `BOARD_SIZE = 12`. -/
def BOARD_SIZE : ℤ := 12

/-- `CH_MIN = 2`. -/
def CH_MIN : ℤ := 2

/-- `CH_MAX = 9`. -/
def CH_MAX : ℤ := 9

/-- The 12x12 board: a grid of optional pieces.  The king-position cache is
modelled away (see the file comment). -/
structure Board where
  grid : ℤ → ℤ → Option Piece

/-- `Board.in_bounds`. -/
def inBoundsB (r c : ℤ) : Bool := decide (0 ≤ r) && decide (r < 12) && decide (0 ≤ c) && decide (c < 12)

/-- `Board.in_bounds` as a proposition. -/
def InBounds (r c : ℤ) : Prop := 0 ≤ r ∧ r < 12 ∧ 0 ≤ c ∧ c < 12

theorem inBoundsB_iff (r c : ℤ) : inBoundsB r c = true ↔ InBounds r c := by
  simp [inBoundsB, InBounds, and_assoc]

instance (r c : ℤ) : Decidable (InBounds r c) :=
  decidable_of_iff _ (inBoundsB_iff r c)

/-- `Board.get`: the cell's piece, `None` out of range. -/
def Board.get (b : Board) (r c : ℤ) : Option Piece :=
  if InBounds r c then b.grid r c else none

/-- `Board.set`: write the cell when in range, otherwise do nothing. -/
def Board.set (b : Board) (r c : ℤ) (p : Option Piece) : Board :=
  if InBounds r c then ⟨fun r' c' => if r' = r ∧ c' = c then p else b.grid r' c'⟩ else b

theorem Board.ext_grid {b1 b2 : Board} (h : ∀ r c, b1.grid r c = b2.grid r c) : b1 = b2 := by
  cases b1; cases b2
  simp only [Board.mk.injEq]
  funext r c
  exact h r c

theorem Board.get_set_same (b : Board) (r c : ℤ) (p : Option Piece) (h : InBounds r c) :
    (b.set r c p).get r c = p := by
  simp [Board.get, Board.set, h]

theorem Board.get_set_other (b : Board) (r c r' c' : ℤ) (p : Option Piece)
    (h : ¬(r' = r ∧ c' = c)) : (b.set r c p).get r' c' = b.get r' c' := by
  unfold Board.set Board.get
  by_cases hb : InBounds r c <;> by_cases hb' : InBounds r' c' <;> simp [hb, hb', h]

theorem Board.grid_set (b : Board) (r c r' c' : ℤ) (p : Option Piece) (h : InBounds r c) :
    (b.set r c p).grid r' c' = if r' = r ∧ c' = c then p else b.grid r' c' := by
  simp [Board.set, h]

/-- All 144 cells, in the row-major order of the Python scans. -/
def allCells : List (ℤ × ℤ) :=
  (List.range 12).flatMap fun (r : ℕ) => (List.range 12).map fun (c : ℕ) =>
    ((r : ℤ), (c : ℤ))

/-- `CORNER_RECTS` lookup: `corner_owner_at(r, c)`. -/
def cornerOwnerAt (r c : ℤ) : Option PColor :=
  if 0 ≤ r ∧ r ≤ 1 ∧ 0 ≤ c ∧ c ≤ 1 then some GREY
  else if 0 ≤ r ∧ r ≤ 1 ∧ 10 ≤ c ∧ c ≤ 11 then some BLACK
  else if 10 ≤ r ∧ r ≤ 11 ∧ 0 ≤ c ∧ c ≤ 1 then some WHITE
  else if 10 ≤ r ∧ r ≤ 11 ∧ 10 ≤ c ∧ c ≤ 11 then some PINK
  else none

/-- `in_chess_area(r, c)`. -/
def inChessArea (r c : ℤ) : Bool :=
  decide (CH_MIN ≤ r) && decide (r ≤ CH_MAX) && decide (CH_MIN ≤ c) && decide (c ≤ CH_MAX)

/-- `_in8(r, c)` (same test as `in_chess_area`). -/
def in8 (r c : ℤ) : Bool := inChessArea r c

/-- `dist_to_chess(r, c)`. -/
def distToChess (r c : ℤ) : ℤ :=
  if inChessArea r c then 0
  else
    (if r < CH_MIN then CH_MIN - r else if r > CH_MAX then r - CH_MAX else 0) +
    (if c < CH_MIN then CH_MIN - c else if c > CH_MAX then c - CH_MAX else 0)

/-- `is_edge_pawn_square(r, c, col)`. -/
def isEdgePawnSquare (r c : ℤ) (col : PColor) : Bool :=
  match col with
  | WHITE | BLACK => decide (c = CH_MIN) || decide (c = CH_MAX)
  | _ => decide (r = CH_MIN) || decide (r = CH_MAX)

/-- `find_king`: position of the seat's king.  Modelled as the row-major
scan (the cache is validated on read, so it is observationally the scan). -/
def findKing (b : Board) (color : PColor) : Option (ℤ × ℤ) :=
  allCells.find? fun rc =>
    match b.get rc.1 rc.2 with
    | some p => p.color = color && p.kind = Kind.K
    | none => false

/-- `Board.alive_colors`. -/
def aliveColors (b : Board) : List PColor :=
  TURN_ORDER.filter fun col => (findKing b col).isSome

/-- The serialised repetition key of `GameState._position_key`, modelled as
the sha1 preimage: occupied cells in scan order with kind/colour/has-moved,
the two-stage flag, the pawn-direction assignment, and turn parity. -/
structure PosKey where
  placements : List (ℤ × ℤ × Kind × PColor × Bool)
  twoStage : Bool
  pawnDirs : List ℤ
  turnPar : ℕ
deriving DecidableEq

/-- The mutable global `gs : GameState` (the fields the rules engine reads),
plus the `GameState.turn_counter` class variable. -/
structure GS where
  twoStageActive : Bool
  finalA : Option PColor
  finalB : Option PColor
  entered : PColor → Bool
  reducedApplied : PColor → Bool
  chessLock : Bool
  halfMoves : ℕ
  cornerImmune : PColor → Bool
  cornerPromoted : PColor → Bool
  cornerEvictPending : PColor → Bool
  cornerInCorner : PColor → Bool
  pawnDir : PColor → ℤ
  recentMoves : List (Option PColor × ℤ × ℤ × ℤ × ℤ)
  posCounts : PosKey → ℕ
  freezeAdvance : Bool
  postMoveDelayUntil : ℕ
  elimFlashColor : Option PColor
  drawByRepetition : Bool
  turnCounter : ℕ
  turnI : ℕ
  chessBoardFen : Option String

/-- `GameState.__init__` (the modelled fields). -/
def initGS : GS where
  twoStageActive := false
  finalA := none
  finalB := none
  entered := fun _ => false
  reducedApplied := fun _ => false
  chessLock := false
  halfMoves := 0
  cornerImmune := fun _ => false
  cornerPromoted := fun _ => false
  cornerEvictPending := fun _ => false
  cornerInCorner := fun _ => false
  pawnDir := fun col => match col with
    | WHITE => -1 | BLACK => 1 | GREY => 1 | PINK => -1
  recentMoves := []
  posCounts := fun _ => 0
  freezeAdvance := false
  postMoveDelayUntil := 0
  elimFlashColor := none
  drawByRepetition := false
  turnCounter := 0
  turnI := 0
  chessBoardFen := none

/-- `GameState._position_key` (the hash preimage; see file comment). -/
def positionKey (st : GS) (b : Board) : PosKey where
  placements := allCells.filterMap fun rc =>
    match b.get rc.1 rc.2 with
    | some p => some (rc.1, rc.2, p.kind, p.color, p.hasMoved)
    | none => none
  twoStage := st.twoStageActive
  pawnDirs := TURN_ORDER.map st.pawnDir
  turnPar := st.turnCounter % 2

end Bishops

namespace Bishops

open PColor

/-! ### Attack detection (`is_square_attacked`, `king_in_check`) -/

/-- The knight offsets of `gen_moves` / `is_square_attacked`. -/
def knightOffsets : List (ℤ × ℤ) := [(2,1),(2,-1),(-2,1),(-2,-1),(1,2),(1,-2),(-1,2),(-1,-2)]

/-- The eight king steps (dr, dc both in -1..1, not both 0), in loop order. -/
def kingOffsets : List (ℤ × ℤ) :=
  [(-1,-1),(-1,0),(-1,1),(0,-1),(0,1),(1,-1),(1,0),(1,1)]

/-- `rook/queen` and `bishop/queen` attack rays: walk from `(rr, cc)` in
direction `(dr, dc)` while in bounds, stopping at corner squares and at the
first occupant (12 squares of fuel always suffice on a 12x12 board). -/
def rayAttacked (b : Board) (attackers : List PColor) (hit : Kind → Bool) :
    ℕ → ℤ → ℤ → ℤ → ℤ → Bool
  | 0, _, _, _, _ => false
  | fuel+1, rr, cc, dr, dc =>
    if InBounds rr cc then
      if (cornerOwnerAt rr cc).isSome then false
      else
        match b.get rr cc with
        | some p => decide (p.color ∈ attackers) && hit p.kind
        | none => rayAttacked b attackers hit fuel (rr+dr) (cc+dc) dr dc
    else false

/-- `is_square_attacked(board, r, c, attackers)`. -/
def isSquareAttacked (st : GS) (b : Board) (r c : ℤ) (attackers : List PColor) : Bool :=
  -- Pawn attacks
  (attackers.any fun col =>
    let pd := st.pawnDir col
    if col = WHITE ∨ col = BLACK then
      let deltas : List (ℤ × ℤ) := if pd = -1 then [(-1,-1),(-1,1)] else [(1,-1),(1,1)]
      deltas.any fun d =>
        let rr := r + d.1
        let cc := c + d.2
        match b.get rr cc with
        | some p =>
            decide (p.color = col) && decide (p.kind = Kind.P) &&
              (cornerOwnerAt r c).isNone && decide (|cc - c| = 1)
        | none => false
    else
      let deltas : List (ℤ × ℤ) := if pd = 1 then [(-1,1),(1,1)] else [(-1,-1),(1,-1)]
      deltas.any fun d =>
        let rr := r + d.1
        let cc := c + d.2
        match b.get rr cc with
        | some p =>
            decide (p.color = col) && decide (p.kind = Kind.P) &&
              (cornerOwnerAt r c).isNone && decide (|rr - r| = 1)
        | none => false) ||
  -- Knights
  (knightOffsets.any fun d =>
    if (cornerOwnerAt r c).isSome then false
    else
      match b.get (r + d.1) (c + d.2) with
      | some p => decide (p.color ∈ attackers) && decide (p.kind = Kind.N)
      | none => false) ||
  -- Sliding (rook/queen)
  (([((1:ℤ),(0:ℤ)),(-1,0),(0,1),(0,-1)]).any fun d =>
    rayAttacked b attackers (fun k => decide (k = Kind.R) || decide (k = Kind.Q)) 12
      (r + d.1) (c + d.2) d.1 d.2) ||
  -- Sliding (bishop/queen)
  (([((1:ℤ),(1:ℤ)),(1,-1),(-1,1),(-1,-1)]).any fun d =>
    rayAttacked b attackers (fun k => decide (k = Kind.B) || decide (k = Kind.Q)) 12
      (r + d.1) (c + d.2) d.1 d.2) ||
  -- Kings (adjacent)
  (kingOffsets.any fun d =>
    if (cornerOwnerAt r c).isSome then false
    else
      match b.get (r + d.1) (c + d.2) with
      | some p => decide (p.color ∈ attackers) && decide (p.kind = Kind.K)
      | none => false)

/-- The attacker list built by `king_in_check` (and the castle generator):
every other seat with a living king.  (The source consults the king cache
first and falls back to `find_king`; by the cache contract both agree with
the scan.) -/
def livingOthers (b : Board) (color : PColor) : List PColor :=
  TURN_ORDER.filter fun col => col ≠ color && (findKing b col).isSome

/-- `king_in_check(board, color)`. -/
def kingInCheck (st : GS) (b : Board) (color : PColor) : Bool :=
  match findKing b color with
  | none => false
  | some rc =>
    if st.cornerImmune color then false
    else isSquareAttacked st b rc.1 rc.2 (livingOthers b color)

end Bishops

namespace Bishops

open PColor

/-! ### Pseudo-legal move generation (`add_slide_moves`, `gen_moves`) -/

/-- `add_slide_moves` inner loop for one direction: walk from `(nr, nc)` in
direction `(dr, dc)` while in bounds; stop before corner squares, stop
before friendly pieces and kings, include an enemy non-king occupant. -/
def slideGen (b : Board) (pcolor : PColor) : ℕ → ℤ → ℤ → ℤ → ℤ → List (ℤ × ℤ)
  | 0, _, _, _, _ => []
  | fuel+1, nr, nc, dr, dc =>
    if InBounds nr nc then
      if (cornerOwnerAt nr nc).isSome then []
      else
        match b.get nr nc with
        | some tgt =>
            if tgt.color ≠ pcolor ∧ tgt.kind ≠ Kind.K then [(nr, nc)] else []
        | none => (nr, nc) :: slideGen b pcolor fuel (nr+dr) (nc+dc) dr dc
    else []

/-- `add_slide_moves(board, r, c, piece, dirs, out)`. -/
def addSlideMoves (b : Board) (pcolor : PColor) (r c : ℤ) (dirs : List (ℤ × ℤ)) :
    List (ℤ × ℤ) :=
  dirs.flatMap fun d => slideGen b pcolor 12 (r + d.1) (c + d.2) d.1 d.2

/-- The `while board.in_bounds(...)` scans of the castle code: the first
occupied square from `(rr, cc)` walking in direction `(dr, dc)`. -/
def findFirstPiece (b : Board) : ℕ → ℤ → ℤ → ℤ → ℤ → Option (ℤ × ℤ × Piece)
  | 0, _, _, _, _ => none
  | fuel+1, rr, cc, dr, dc =>
    if InBounds rr cc then
      match b.get rr cc with
      | some q => some (rr, cc, q)
      | none => findFirstPiece b fuel (rr+dr) (cc+dc) dr dc
    else none

/-- The per-colour castle parameters of `gen_moves`: home axis is a row
(`true`) or a column (`false`), its index, the side direction and the
corner direction. -/
def castleParams : PColor → Bool × ℤ × (ℤ × ℤ) × (ℤ × ℤ)
  | WHITE => (true, 11, (0, 1), (0, -1))
  | BLACK => (true, 0, (0, -1), (0, 1))
  | GREY => (false, 0, (1, 0), (-1, 0))
  | PINK => (false, 11, (-1, 0), (1, 0))

/-- `_castle_dir(drc)` inside `gen_moves`. -/
def castleDir (st : GS) (b : Board) (color : PColor) (r c : ℤ) (d : ℤ × ℤ) :
    Option (ℤ × ℤ) :=
  let k1r := r + d.1
  let k1c := c + d.2
  let k2r := r + 2*d.1
  let k2c := c + 2*d.2
  if ¬(InBounds k1r k1c ∧ InBounds k2r k2c) then none
  else if (b.get k1r k1c).isSome ∨ (b.get k2r k2c).isSome then none
  else
    match findFirstPiece b 12 (r + 3*d.1) (c + 3*d.2) d.1 d.2 with
    | none => none
    | some rookSq =>
      let rq := rookSq.2.2
      if ¬(rq.color = color ∧ rq.kind = Kind.R ∧ rq.hasMoved = false) then none
      else
        let attackers := livingOthers b color
        if kingInCheck st b color then none
        else if isSquareAttacked st b k1r k1c attackers then none
        else if isSquareAttacked st b k2r k2c attackers then none
        else
          let o1 := cornerOwnerAt k1r k1c
          let o2 := cornerOwnerAt k2r k2c
          if (o1.isSome ∧ o1 ≠ some color) ∨ (o2.isSome ∧ o2 ≠ some color) then none
          else some (k2r, k2c)

/-- The castle candidates appended by `gen_moves` for a king: both
directions, only outside chess lock, only for an unmoved king on its home
axis. -/
def castleMoves (st : GS) (b : Board) (p : Piece) (r c : ℤ) : List (ℤ × ℤ) :=
  if st.chessLock then []
  else if p.hasMoved then []
  else
    let prm := castleParams p.color
    let onHome := if prm.1 then r = prm.2.1 else c = prm.2.1
    if onHome then
      ([prm.2.2.1, prm.2.2.2]).filterMap fun d => castleDir st b p.color r c d
    else []

/-- The knight branch of `gen_moves`. -/
def knightMovesGen (b : Board) (color : PColor) (r c : ℤ) : List (ℤ × ℤ) :=
  knightOffsets.filterMap fun d =>
    let nr := r + d.1
    let nc := c + d.2
    if InBounds nr nc then
      if (cornerOwnerAt nr nc).isSome then none
      else
        match b.get nr nc with
        | some tgt => if tgt.color ≠ color ∧ tgt.kind ≠ Kind.K then some (nr, nc) else none
        | none => some (nr, nc)
    else none

/-- The eight ordinary king steps of `gen_moves`: a king may enter only its
own corner region and can capture neither friends nor kings. -/
def kingBaseMoves (b : Board) (color : PColor) (r c : ℤ) : List (ℤ × ℤ) :=
  kingOffsets.filterMap fun d =>
    let nr := r + d.1
    let nc := c + d.2
    if InBounds nr nc then
      if (cornerOwnerAt nr nc).isSome ∧ cornerOwnerAt nr nc ≠ some color then none
      else
        match b.get nr nc with
        | some tgt => if tgt.color ≠ color ∧ tgt.kind ≠ Kind.K then some (nr, nc) else none
        | none => some (nr, nc)
    else none

/-- The king branch of `gen_moves`: base steps plus castle candidates,
then the corner-eviction preference filter. -/
def kingMovesGen (st : GS) (b : Board) (p : Piece) (r c : ℤ) : List (ℤ × ℤ) :=
  let moves := kingBaseMoves b p.color r c ++ castleMoves st b p r c
  if st.cornerEvictPending p.color ∧ cornerOwnerAt r c = some p.color then
    let exitMoves := moves.filter fun m => cornerOwnerAt m.1 m.2 ≠ some p.color
    if exitMoves.isEmpty then moves else exitMoves
  else moves

/-- The forward (non-capturing) pawn moves of `gen_moves`, for a given
forward vector: one step to an empty non-corner square, plus a second step
for an unmoved pawn. -/
def pawnFwdMoves (b : Board) (p : Piece) (r c : ℤ) (fwd : ℤ × ℤ) : List (ℤ × ℤ) :=
  let nr := r + fwd.1
  let nc := c + fwd.2
  if InBounds nr nc ∧ (cornerOwnerAt nr nc).isNone ∧ (b.get nr nc).isNone then
    let nr2 := nr + fwd.1
    let nc2 := nc + fwd.2
    (nr, nc) ::
      (if p.hasMoved = false ∧ InBounds nr2 nc2 ∧ (cornerOwnerAt nr2 nc2).isNone ∧
          (b.get nr2 nc2).isNone then
        [(nr2, nc2)]
      else [])
  else []

/-- The diagonal pawn captures of `gen_moves`, for a given capture-delta
list, including the first-round edge-pawn capture restriction. -/
def pawnCapMoves (st : GS) (b : Board) (p : Piece) (r c : ℤ) (caps : List (ℤ × ℤ)) :
    List (ℤ × ℤ) :=
  caps.filterMap fun d =>
    let ar := r + d.1
    let ac := c + d.2
    if InBounds ar ac ∧ (cornerOwnerAt ar ac).isNone then
      match b.get ar ac with
      | some tgt =>
        if tgt.color ≠ p.color ∧ tgt.kind ≠ Kind.K then
          -- edge-pawn capture restriction during the first 4 plies
          if st.halfMoves < 4 ∧ tgt.kind = Kind.P ∧
              isEdgePawnSquare r c p.color = true ∧
              isEdgePawnSquare ar ac tgt.color = true then
            none
          else some (ar, ac)
        else none
      | none => none
    else none

/-- The pawn branch of `gen_moves`: forward moves then captures, with the
forward vector and capture deltas derived from the seat's pawn direction. -/
def pawnMovesGen (st : GS) (b : Board) (p : Piece) (r c : ℤ) : List (ℤ × ℤ) :=
  let color := p.color
  let pd := st.pawnDir color
  let fwd : ℤ × ℤ := if color = WHITE ∨ color = BLACK then (pd, 0) else (0, pd)
  let caps : List (ℤ × ℤ) :=
    if color = WHITE ∨ color = BLACK then
      if pd = -1 then [(-1,-1),(-1,1)] else [(1,-1),(1,1)]
    else
      if pd = 1 then [(-1,1),(1,1)] else [(-1,-1),(1,-1)]
  pawnFwdMoves b p r c fwd ++ pawnCapMoves st b p r c caps

/-- `gen_moves` after the piece has been fetched, by kind. -/
def genMovesAux (st : GS) (b : Board) (p : Piece) (r c : ℤ) : List (ℤ × ℤ) :=
  match p.kind with
  | Kind.N => knightMovesGen b p.color r c
  | Kind.K => kingMovesGen st b p r c
  | Kind.R => addSlideMoves b p.color r c [(1,0),(-1,0),(0,1),(0,-1)]
  | Kind.B => addSlideMoves b p.color r c [(1,1),(1,-1),(-1,1),(-1,-1)]
  | Kind.Q => addSlideMoves b p.color r c [(1,0),(-1,0),(0,1),(0,-1),(1,1),(1,-1),(-1,1),(-1,-1)]
  | Kind.P => pawnMovesGen st b p r c

/-- `gen_moves(board, r, c)`: pseudo-legal destinations for the piece at
`(r, c)`. -/
def genMoves (st : GS) (b : Board) (r c : ℤ) : List (ℤ × ℤ) :=
  match b.get r c with
  | none => []
  | some p => genMovesAux st b p r c

end Bishops

namespace Bishops

open PColor

/-! ### Move application and undo (`board_do_move`, `board_undo_move`) -/

/-- The `effects` dict returned by `board_do_move` (only the `promoted`
flag matters to the rules engine). -/
structure Effects where
  promoted : Bool
deriving DecidableEq, Repr

/-- The `(cap, prev_has, prev_kind, effects)` tuple of `board_do_move`. -/
structure DoRes where
  cap : Option Piece
  prevHas : Bool
  prevKind : Option Kind
  effects : Effects
deriving DecidableEq, Repr

/-- The per-colour promotion test of `board_do_move`: WHITE at row
`CH_MIN`, BLACK at row `CH_MAX`, GREY at column `CH_MAX`, PINK at column
`CH_MIN`. -/
def promoLine (color : PColor) (er ec : ℤ) : Bool :=
  match color with
  | WHITE => decide (er = CH_MIN)
  | BLACK => decide (er = CH_MAX)
  | GREY => decide (ec = CH_MAX)
  | PINK => decide (ec = CH_MIN)

/-- `board_do_move(board, sr, sc, er, ec, simulate=True)`: the board part
(simulation never touches `gs`).  When chess lock is active and an endpoint
is outside the 8x8, the move is rejected and `(None, False, None, {})` is
returned with the board untouched. -/
def boardDoMoveSim (st : GS) (b : Board) (sr sc er ec : ℤ) : DoRes × Board :=
  let mover := b.get sr sc
  let cap := b.get er ec
  let prevHas := match mover with | some m => m.hasMoved | none => false
  let prevKind := mover.map Piece.kind
  if st.chessLock ∧ (in8 sr sc = false ∨ in8 er ec = false) then
    ({ cap := none, prevHas := false, prevKind := none, effects := ⟨false⟩ }, b)
  else
    let b1 := b.set sr sc none
    match mover with
    | none => ({ cap := cap, prevHas := prevHas, prevKind := prevKind, effects := ⟨false⟩ }, b1)
    | some m =>
      let b2 := b1.set er ec (some m)
      let promote := m.kind = Kind.P ∧ promoLine m.color er ec = true
      let m' : Piece :=
        { m with hasMoved := true, kind := if promote then Kind.Q else m.kind }
      let b3 := b2.set er ec (some m')
      ({ cap := cap, prevHas := prevHas, prevKind := prevKind, effects := ⟨decide promote⟩ }, b3)

/-- `board_undo_move(board, sr, sc, er, ec, captured, prev_has_moved,
prev_kind, effects)`.  The in-place flag/kind restoration mutates the mover
object, which (under the one-cell-per-piece ownership invariant) now sits
at the source square. -/
def boardUndoMove (b : Board) (sr sc er ec : ℤ) (captured : Option Piece)
    (prevHas : Bool) (prevKind : Option Kind) (promoted : Bool) : Board :=
  let mover := b.get er ec
  let b1 := b.set sr sc mover
  let b2 := b1.set er ec captured
  match mover with
  | none => b2
  | some m =>
    let m' : Piece :=
      { m with
        hasMoved := prevHas
        kind := if promoted then Kind.P else (match prevKind with | some k => k | none => m.kind) }
    if b2.get sr sc = some m then b2.set sr sc (some m') else b2

/-- `perform_two_stage_migration(board, gs, alive_colors)`. -/
def performTwoStageMigration (b : Board) (st : GS) (alive : List PColor) : Board × GS :=
  let b1 := allCells.foldl (fun bAcc rc =>
    match bAcc.get rc.1 rc.2 with
    | some p =>
        if p.kind ≠ Kind.K ∧ inChessArea rc.1 rc.2 = false then bAcc.set rc.1 rc.2 none
        else bAcc
    | none => bAcc) b
  match alive with
  | [a, b2] =>
    if (colorIndex a + 2) % 4 = colorIndex b2 then (b1, st)
    else
      (b1, { st with pawnDir := fun col =>
        if col = a ∨ col = b2 then -(st.pawnDir col) else st.pawnDir col })
  | _ => (b1, st)

/-- `activate_two_stage_if_needed(board, gs)`. -/
def activateTwoStageIfNeeded (b : Board) (st : GS) : Board × GS :=
  let alive := aliveColors b
  if alive.length ≠ 2 then (b, st)
  else if st.twoStageActive then (b, st)
  else
    let st1 := { st with twoStageActive := true, finalA := alive[0]?, finalB := alive[1]? }
    performTwoStageMigration b st1 alive

/-- The short-castle rook mirror of the real `board_do_move`: when a king
moved exactly two squares along a rank or file, relocate the first piece
found beyond it (if it is a friendly rook) to the square the king passed
over. -/
def castleRookMirror (b : Board) (moverKind : Kind) (moverColor : PColor)
    (sr sc er ec : ℤ) : Board :=
  if moverKind = Kind.K then
    let horiz := sr = er ∧ |ec - sc| = 2
    let vert := sc = ec ∧ |er - sr| = 2
    if horiz ∨ vert then
      let dr : ℤ := if horiz then 0 else (if er > sr then 1 else -1)
      let dc : ℤ := if vert then 0 else (if ec > sc then 1 else -1)
      match findFirstPiece b 12 (sr + 3*dr) (sc + 3*dc) dr dc with
      | some rookPos =>
        let rq := rookPos.2.2
        if rq.kind = Kind.R ∧ rq.color = moverColor then
          let b1 := b.set rookPos.1 rookPos.2.1 none
          b1.set (sr + dr) (sc + dc) (some { rq with hasMoved := true })
        else b
      | none => b
    else b
  else b

/-- The board produced by a real `board_do_move`: the simulated mutation
followed by the castle rook mirror. -/
def movedBoard (st : GS) (b : Board) (sr sc er ec : ℤ) : Board :=
  let b1 := (boardDoMoveSim st b sr sc er ec).2
  match b1.get er ec with
  | some mAfter => castleRookMirror b1 mAfter.kind mAfter.color sr sc er ec
  | none => b1

/-- The `GameState` bookkeeping of a real `board_do_move`: half-move
counter, recent-move log, repetition count for the canonical key of the
post-move position, and the threefold-repetition draw flag. -/
def stAfterCore (st : GS) (b : Board) (sr sc er ec : ℤ) : GS :=
  let mover := b.get sr sc
  let st1 := { st with
    halfMoves := st.halfMoves + 1
    recentMoves := st.recentMoves ++ [(mover.map Piece.color, sr, sc, er, ec)] }
  let key := positionKey st1 (movedBoard st b sr sc er ec)
  let newCount := st1.posCounts key + 1
  let st2 := { st1 with posCounts := fun k => if k = key then newCount else st1.posCounts k }
  if newCount ≥ 3 then
    { st2 with
      freezeAdvance := true
      postMoveDelayUntil := 0
      elimFlashColor := none
      drawByRepetition := true }
  else st2

/-- `board_do_move(board, sr, sc, er, ec)` with `simulate=False`: the board
mutation of the simulated path, then the castle rook mirror, then the
`GameState` bookkeeping and `activate_two_stage_if_needed`.  `none` models
the `ValueError` raised for a chess-locked move with an endpoint outside
the 8x8. -/
def boardDoMoveReal (st : GS) (b : Board) (sr sc er ec : ℤ) :
    Option (DoRes × Board × GS) :=
  if st.chessLock ∧ (in8 sr sc = false ∨ in8 er ec = false) then none
  else
    let res := (boardDoMoveSim st b sr sc er ec).1
    let b2 := movedBoard st b sr sc er ec
    let st3 := stAfterCore st b sr sc er ec
    let pair := activateTwoStageIfNeeded b2 st3
    some (res, pair.1, pair.2)

/-! ### Legal-move filtering (`legal_moves_for_piece`,
`all_legal_moves_for_color`) -/

/-- A `(sr, sc, er, ec)` move tuple. -/
abbrev MoveT := ℤ × ℤ × ℤ × ℤ

/-- One iteration of the filter loop of `legal_moves_for_piece`: simulate,
test check for the mover's colour, undo; keep the move when the simulated
position is not self-check. -/
def legalFilterStep (st : GS) (color : PColor) (r c : ℤ)
    (acc : List MoveT × Board) (m : ℤ × ℤ) : List MoveT × Board :=
  let (res, b1) := boardDoMoveSim st acc.2 r c m.1 m.2
  let illegal := kingInCheck st b1 color
  let b2 := boardUndoMove b1 r c m.1 m.2 res.cap res.prevHas res.prevKind res.effects.promoted
  (if illegal then acc.1 else acc.1 ++ [(r, c, m.1, m.2)], b2)

/-- `legal_moves_for_piece(board, r, c)` (the original, pre-override
definition: the survival-phase filter).  The board component of the result
records the net effect of the simulate/undo cycles on the board object. -/
def legalMovesForPiece (st : GS) (b : Board) (r c : ℤ) : List MoveT × Board :=
  match b.get r c with
  | none => ([], b)
  | some p =>
    let pseudo := genMoves st b r c
    pseudo.foldl (legalFilterStep st p.color r c) ([], b)

/-- One cell of the scan of `all_legal_moves_for_color`. -/
def allLegalStep (st : GS) (color : PColor) (acc : List MoveT × Board) (rc : ℤ × ℤ) :
    List MoveT × Board :=
  match acc.2.get rc.1 rc.2 with
  | some p =>
      if p.color = color then
        let r := legalMovesForPiece st acc.2 rc.1 rc.2
        (acc.1 ++ r.1, r.2)
      else acc
  | none => acc

/-- `all_legal_moves_for_color(board, color)`, threading the board through
each per-piece filter call.  (The source's pair-normalisation branch is
dead: `legal_moves_for_piece` always returns 4-tuples.) -/
def allLegalMovesForColor (st : GS) (b : Board) (color : PColor) :
    List MoveT × Board :=
  allCells.foldl (allLegalStep st color) ([], b)

end Bishops

namespace Bishops

open PColor

/-! ### Concrete boards: the empty board, board literals, and the
four-player `Board._setup` position -/

/-- The board with no pieces. -/
def emptyBoard : Board := ⟨fun _ _ => none⟩

/-- Build a board from a placement list (later entries overwrite). -/
def mkBoard (ps : List (ℤ × ℤ × Piece)) : Board :=
  ps.foldl (fun b x => b.set x.1 x.2.1 (some x.2.2)) emptyBoard

/-- The standard back rank `['R','N','B','Q','K','B','N','R']`. -/
def backStd : List Kind :=
  [Kind.R, Kind.N, Kind.B, Kind.Q, Kind.K, Kind.B, Kind.N, Kind.R]

/-- `Board._setup()`: the initial four-player position (back ranks and
pawn ranks for all four seats).  `pid`s enumerate the placement order. -/
def initialPlacements : List (ℤ × ℤ × Kind × PColor) :=
  ((List.range 8).map fun (i : ℕ) => ((11 : ℤ), ((i : ℤ) + 2), backStd.getD i Kind.R, WHITE)) ++
  ((List.range 8).map fun (i : ℕ) => ((10 : ℤ), ((i : ℤ) + 2), Kind.P, WHITE)) ++
  ((List.range 8).map fun (i : ℕ) => ((0 : ℤ), ((i : ℤ) + 2), backStd.getD i Kind.R, BLACK)) ++
  ((List.range 8).map fun (i : ℕ) => ((1 : ℤ), ((i : ℤ) + 2), Kind.P, BLACK)) ++
  ((List.range 8).map fun (i : ℕ) => (((i : ℤ) + 2), (0 : ℤ), backStd.getD i Kind.R, GREY)) ++
  ((List.range 8).map fun (i : ℕ) => (((i : ℤ) + 2), (1 : ℤ), Kind.P, GREY)) ++
  ((List.range 8).map fun (i : ℕ) => (((i : ℤ) + 2), (11 : ℤ), backStd.getD i Kind.R, PINK)) ++
  ((List.range 8).map fun (i : ℕ) => (((i : ℤ) + 2), (10 : ℤ), Kind.P, PINK))

/-- The initial board of `Board.__init__`. -/
def initialBoard : Board :=
  mkBoard (initialPlacements.enum.map fun x =>
    (x.2.1, x.2.2.1, ⟨x.2.2.2.1, x.2.2.2.2, false, x.1⟩))

end Bishops


namespace Bishops

open PColor

/-! ### Structural facts about pseudo-move targets -/

/-- Targets produced by a slide ray are in bounds and hold no piece of the
sliding piece's colour. -/
theorem slideGen_target (b : Board) (pc : PColor) :
    ∀ (fuel : ℕ) (nr nc dr dc : ℤ) (m : ℤ × ℤ),
      m ∈ slideGen b pc fuel nr nc dr dc →
      InBounds m.1 m.2 ∧ ∀ q, b.get m.1 m.2 = some q → q.color ≠ pc := by
  intro fuel
  induction fuel with
  | zero => intro nr nc dr dc m hm; simp [slideGen] at hm
  | succ f ih =>
    intro nr nc dr dc m hm
    unfold slideGen at hm
    by_cases hin : InBounds nr nc
    · simp only [hin, if_true] at hm
      by_cases hcor : (cornerOwnerAt nr nc).isSome
      · simp [hcor] at hm
      · simp only [hcor, Bool.false_eq_true, if_false] at hm
        rcases hget : b.get nr nc with _ | tgt
        · rw [hget] at hm
          dsimp only at hm
          rcases List.mem_cons.mp hm with h | h
          · subst h
            exact ⟨hin, fun q hq => by rw [hget] at hq; cases hq⟩
          · exact ih (nr+dr) (nc+dc) dr dc m h
        · rw [hget] at hm
          dsimp only at hm
          by_cases hcond : tgt.color ≠ pc ∧ tgt.kind ≠ Kind.K
          · rw [if_pos hcond] at hm
            rcases List.mem_singleton.mp hm with rfl
            exact ⟨hin, fun q hq => by rw [hget] at hq; cases hq; exact hcond.1⟩
          · simp [hcond] at hm
    · simp [hin] at hm

theorem addSlideMoves_target (b : Board) (pc : PColor) (r c : ℤ) (dirs : List (ℤ × ℤ))
    (m : ℤ × ℤ) (hm : m ∈ addSlideMoves b pc r c dirs) :
    InBounds m.1 m.2 ∧ ∀ q, b.get m.1 m.2 = some q → q.color ≠ pc := by
  rcases List.mem_flatMap.mp hm with ⟨d, _, hd⟩
  exact slideGen_target b pc 12 (r + d.1) (c + d.2) d.1 d.2 m hd

theorem knightMovesGen_target (b : Board) (pc : PColor) (r c : ℤ)
    (m : ℤ × ℤ) (hm : m ∈ knightMovesGen b pc r c) :
    InBounds m.1 m.2 ∧ ∀ q, b.get m.1 m.2 = some q → q.color ≠ pc := by
  rcases List.mem_filterMap.mp hm with ⟨d, _, hd⟩
  simp only at hd
  by_cases hin : InBounds (r + d.1) (c + d.2)
  · rw [if_pos hin] at hd
    by_cases hcor : (cornerOwnerAt (r + d.1) (c + d.2)).isSome
    · simp [hcor] at hd
    · simp only [hcor, Bool.false_eq_true, if_false] at hd
      rcases hget : b.get (r + d.1) (c + d.2) with _ | tgt <;> rw [hget] at hd <;> dsimp only at hd
      · cases hd
        exact ⟨hin, fun q hq => by rw [hget] at hq; cases hq⟩
      · by_cases hcond : tgt.color ≠ pc ∧ tgt.kind ≠ Kind.K
        · rw [if_pos hcond] at hd
          cases hd
          exact ⟨hin, fun q hq => by rw [hget] at hq; cases hq; exact hcond.1⟩
        · simp [hcond] at hd
  · simp [hin] at hd

theorem kingBaseMoves_target (b : Board) (pc : PColor) (r c : ℤ)
    (m : ℤ × ℤ) (hm : m ∈ kingBaseMoves b pc r c) :
    InBounds m.1 m.2 ∧ ∀ q, b.get m.1 m.2 = some q → q.color ≠ pc := by
  rcases List.mem_filterMap.mp hm with ⟨d, _, hd⟩
  simp only at hd
  by_cases hin : InBounds (r + d.1) (c + d.2)
  · rw [if_pos hin] at hd
    by_cases hcor : (cornerOwnerAt (r + d.1) (c + d.2)).isSome ∧
        cornerOwnerAt (r + d.1) (c + d.2) ≠ some pc
    · simp [hcor] at hd
    · rw [if_neg hcor] at hd
      rcases hget : b.get (r + d.1) (c + d.2) with _ | tgt <;> rw [hget] at hd <;> dsimp only at hd
      · cases hd
        exact ⟨hin, fun q hq => by rw [hget] at hq; cases hq⟩
      · by_cases hcond : tgt.color ≠ pc ∧ tgt.kind ≠ Kind.K
        · rw [if_pos hcond] at hd
          cases hd
          exact ⟨hin, fun q hq => by rw [hget] at hq; cases hq; exact hcond.1⟩
        · simp [hcond] at hd
  · simp [hin] at hd

theorem castleMoves_target (st : GS) (b : Board) (p : Piece) (r c : ℤ)
    (m : ℤ × ℤ) (hm : m ∈ castleMoves st b p r c) :
    InBounds m.1 m.2 ∧ ∀ q, b.get m.1 m.2 = some q → q.color ≠ p.color := by
  unfold castleMoves at hm
  by_cases hlock : st.chessLock
  · simp [hlock] at hm
  · simp only [hlock, Bool.false_eq_true, if_false] at hm
    by_cases hmoved : p.hasMoved
    · simp [hmoved] at hm
    · simp only [hmoved, Bool.false_eq_true, if_false] at hm
      by_cases hhome : (if (castleParams p.color).1 then r = (castleParams p.color).2.1
          else c = (castleParams p.color).2.1)
      · rw [if_pos hhome] at hm
        rcases List.mem_filterMap.mp hm with ⟨d, _, hd⟩
        unfold castleDir at hd
        by_cases h1 : InBounds (r + d.1) (c + d.2) ∧ InBounds (r + 2*d.1) (c + 2*d.2)
        · rw [if_neg (by simpa using h1)] at hd
          by_cases h2 : (b.get (r + d.1) (c + d.2)).isSome ∨
              (b.get (r + 2*d.1) (c + 2*d.2)).isSome
          · simp [h2] at hd
          · rw [if_neg h2] at hd
            rcases hff : findFirstPiece b 12 (r + 3*d.1) (c + 3*d.2) d.1 d.2 with _ | rookSq <;>
              rw [hff] at hd <;> dsimp only at hd
            · cases hd
            · by_cases h3 : ¬(rookSq.2.2.color = p.color ∧ rookSq.2.2.kind = Kind.R ∧
                  rookSq.2.2.hasMoved = false)
              · rw [if_pos h3] at hd
                cases hd
              · rw [if_neg h3] at hd
                by_cases h4 : kingInCheck st b p.color
                · simp [h4] at hd
                · rw [if_neg (by simpa using h4)] at hd
                  by_cases h5 : isSquareAttacked st b (r + d.1) (c + d.2)
                      (livingOthers b p.color)
                  · simp [h5] at hd
                  · rw [if_neg (by simpa using h5)] at hd
                    by_cases h6 : isSquareAttacked st b (r + 2*d.1) (c + 2*d.2)
                        (livingOthers b p.color)
                    · simp [h6] at hd
                    · rw [if_neg (by simpa using h6)] at hd
                      by_cases h7 : ((cornerOwnerAt (r + d.1) (c + d.2)).isSome ∧
                            cornerOwnerAt (r + d.1) (c + d.2) ≠ some p.color) ∨
                          ((cornerOwnerAt (r + 2*d.1) (c + 2*d.2)).isSome ∧
                            cornerOwnerAt (r + 2*d.1) (c + 2*d.2) ≠ some p.color)
                      · rw [if_pos h7] at hd
                        cases hd
                      · rw [if_neg h7] at hd
                        cases hd
                        refine ⟨h1.2, ?_⟩
                        intro q hq
                        have hs : (b.get (r + 2*d.1) (c + 2*d.2)).isSome := by
                          rw [hq]; rfl
                        exact absurd (Or.inr hs) h2
        · rw [if_pos (by simpa using h1)] at hd
          cases hd
      · simp [if_neg hhome] at hm

theorem kingMovesGen_sub (st : GS) (b : Board) (p : Piece) (r c : ℤ)
    (m : ℤ × ℤ) (hm : m ∈ kingMovesGen st b p r c) :
    m ∈ kingBaseMoves b p.color r c ++ castleMoves st b p r c := by
  unfold kingMovesGen at hm
  dsimp only at hm
  split at hm
  · split at hm
    · exact hm
    · exact List.mem_of_mem_filter hm
  · exact hm

theorem kingMovesGen_target (st : GS) (b : Board) (p : Piece) (r c : ℤ)
    (m : ℤ × ℤ) (hm : m ∈ kingMovesGen st b p r c) :
    InBounds m.1 m.2 ∧ ∀ q, b.get m.1 m.2 = some q → q.color ≠ p.color := by
  rcases List.mem_append.mp (kingMovesGen_sub st b p r c m hm) with h | h
  · exact kingBaseMoves_target b p.color r c m h
  · exact castleMoves_target st b p r c m h

theorem pawnFwdMoves_target (b : Board) (p : Piece) (r c : ℤ) (fwd : ℤ × ℤ)
    (m : ℤ × ℤ) (hm : m ∈ pawnFwdMoves b p r c fwd) :
    InBounds m.1 m.2 ∧ ∀ q, b.get m.1 m.2 = some q → q.color ≠ p.color := by
  unfold pawnFwdMoves at hm
  dsimp only at hm
  split at hm
  case isTrue h1 =>
    rcases List.mem_cons.mp hm with rfl | h2
    · refine ⟨h1.1, fun q hq => ?_⟩
      have h3 := h1.2.2
      rw [hq] at h3
      cases h3
    · split at h2
      case isTrue h4 =>
        rcases List.mem_singleton.mp h2 with rfl
        refine ⟨h4.2.1, fun q hq => ?_⟩
        have h5 := h4.2.2.2
        rw [hq] at h5
        cases h5
      case isFalse h4 => cases h2
  case isFalse h1 => cases hm

theorem pawnCapMoves_target (st : GS) (b : Board) (p : Piece) (r c : ℤ)
    (caps : List (ℤ × ℤ)) (m : ℤ × ℤ) (hm : m ∈ pawnCapMoves st b p r c caps) :
    InBounds m.1 m.2 ∧ ∀ q, b.get m.1 m.2 = some q → q.color ≠ p.color := by
  rcases List.mem_filterMap.mp hm with ⟨d, _, hd⟩
  dsimp only at hd
  by_cases hok : InBounds (r + d.1) (c + d.2) ∧ (cornerOwnerAt (r + d.1) (c + d.2)).isNone
  · rw [if_pos hok] at hd
    rcases hget : b.get (r + d.1) (c + d.2) with _ | tgt <;> rw [hget] at hd <;> dsimp only at hd
    · cases hd
    · by_cases hcond : tgt.color ≠ p.color ∧ tgt.kind ≠ Kind.K
      · rw [if_pos hcond] at hd
        by_cases hedge : st.halfMoves < 4 ∧ tgt.kind = Kind.P ∧
            isEdgePawnSquare r c p.color = true ∧
            isEdgePawnSquare (r + d.1) (c + d.2) tgt.color = true
        · rw [if_pos hedge] at hd
          cases hd
        · rw [if_neg hedge] at hd
          cases hd
          exact ⟨hok.1, fun q hq => by rw [hget] at hq; cases hq; exact hcond.1⟩
      · simp [hcond] at hd
  · rw [if_neg hok] at hd
    cases hd

theorem pawnMovesGen_target (st : GS) (b : Board) (p : Piece) (r c : ℤ)
    (m : ℤ × ℤ) (hm : m ∈ pawnMovesGen st b p r c) :
    InBounds m.1 m.2 ∧ ∀ q, b.get m.1 m.2 = some q → q.color ≠ p.color := by
  unfold pawnMovesGen at hm
  rcases List.mem_append.mp hm with h | h
  · exact pawnFwdMoves_target b p r c _ m h
  · exact pawnCapMoves_target st b p r c _ m h

/-- Every pseudo-legal destination of `gen_moves` is in bounds and holds
no piece of the mover's colour. -/
theorem genMoves_target (st : GS) (b : Board) (r c : ℤ) (p : Piece)
    (hp : b.get r c = some p) :
    ∀ m ∈ genMoves st b r c,
      InBounds m.1 m.2 ∧ ∀ q, b.get m.1 m.2 = some q → q.color ≠ p.color := by
  intro m hm
  unfold genMoves at hm
  rw [hp] at hm
  dsimp only at hm
  unfold genMovesAux at hm
  rcases hk : p.kind with _ | _ | _ | _ | _ | _ <;> rw [hk] at hm <;> dsimp only at hm
  · exact kingMovesGen_target st b p r c m hm
  · exact addSlideMoves_target b p.color r c _ m hm
  · exact addSlideMoves_target b p.color r c _ m hm
  · exact addSlideMoves_target b p.color r c _ m hm
  · exact knightMovesGen_target b p.color r c m hm
  · exact pawnMovesGen_target st b p r c m hm

/-- A pseudo-legal destination is never the source square (the source
holds the mover, a piece of the mover's own colour). -/
theorem genMoves_ne_src (st : GS) (b : Board) (r c : ℤ) (p : Piece)
    (hp : b.get r c = some p) :
    ∀ m ∈ genMoves st b r c, ¬(m.1 = r ∧ m.2 = c) := by
  intro m hm ⟨h1, h2⟩
  rcases genMoves_target st b r c p hp m hm with ⟨_, hq⟩
  rw [h1, h2] at hq
  exact hq p hp rfl

end Bishops

namespace Bishops

open PColor

/-! ### The simulate/undo round trip -/

theorem Board.get_some (b : Board) (r c : ℤ) (p : Piece) (h : b.get r c = some p) :
    InBounds r c ∧ b.grid r c = some p := by
  unfold Board.get at h
  by_cases hin : InBounds r c
  · rw [if_pos hin] at h
    exact ⟨hin, h⟩
  · rw [if_neg hin] at h
    cases h

/-- Applying `board_do_move(simulate=True)` and then `board_undo_move` with
the returned tuple restores the board exactly, for any move with an
occupied source, an in-bounds destination distinct from the source, and
which is not rejected by the chess-lock guard. -/
theorem boardDoMoveSim_undo (st : GS) (b : Board) (sr sc er ec : ℤ) (p : Piece)
    (hp : b.get sr sc = some p) (hin : InBounds er ec) (hne : ¬(er = sr ∧ ec = sc))
    (hlock : ¬(st.chessLock = true ∧ (in8 sr sc = false ∨ in8 er ec = false))) :
    boardUndoMove (boardDoMoveSim st b sr sc er ec).2 sr sc er ec
      (boardDoMoveSim st b sr sc er ec).1.cap
      (boardDoMoveSim st b sr sc er ec).1.prevHas
      (boardDoMoveSim st b sr sc er ec).1.prevKind
      (boardDoMoveSim st b sr sc er ec).1.effects.promoted = b := by
  obtain ⟨hsin, hgrid⟩ := Board.get_some b sr sc p hp
  unfold boardDoMoveSim
  rw [hp, if_neg hlock]
  dsimp only
  set promote := p.kind = Kind.P ∧ promoLine p.color er ec = true with hpromo
  set pmoved : Piece := ⟨if promote then Kind.Q else p.kind, p.color, true, p.pid⟩ with hpm
  set b3 : Board := ((b.set sr sc none).set er ec (some p)).set er ec (some pmoved) with hb3
  have hb3get : b3.get er ec = some pmoved := Board.get_set_same _ er ec _ hin
  unfold boardUndoMove
  rw [hb3get]
  dsimp only
  have hget2 : ((b3.set sr sc (some pmoved)).set er ec (b.get er ec)).get sr sc
      = some pmoved := by
    rw [Board.get_set_other _ er ec sr sc _ (fun h => hne ⟨h.1.symm, h.2.symm⟩)]
    exact Board.get_set_same _ sr sc _ hsin
  rw [if_pos hget2]
  apply Board.ext_grid
  intro r' c'
  rw [Board.grid_set _ sr sc r' c' _ hsin]
  by_cases h1 : r' = sr ∧ c' = sc
  · rw [if_pos h1, h1.1, h1.2, hgrid]
    congr 1
    by_cases hcase : p.kind = Kind.P ∧ promoLine p.color er ec = true
    · obtain ⟨hpk, hpl⟩ := hcase
      rcases p with ⟨pk, pc2, ph, pi⟩
      simp_all [hpm]
    · rcases p with ⟨pk, pc2, ph, pi⟩
      simp_all [hpm]
  · rw [if_neg h1]
    rw [Board.grid_set _ er ec r' c' _ hin]
    by_cases h2 : r' = er ∧ c' = ec
    · rw [if_pos h2, h2.1, h2.2]
      unfold Board.get
      rw [if_pos hin]
    · rw [if_neg h2]
      rw [Board.grid_set _ sr sc r' c' _ hsin, if_neg h1, hb3]
      rw [Board.grid_set _ er ec r' c' _ hin, if_neg h2]
      rw [Board.grid_set _ er ec r' c' _ hin, if_neg h2]
      rw [Board.grid_set _ sr sc r' c' _ hsin, if_neg h1]

end Bishops

namespace Bishops

open PColor

/-! ### The legality filter restores the board and keeps only self-check-free moves -/

/-- The property of every move kept by the filter of
`legal_moves_for_piece`: it starts at the queried square and the simulated
position it produces is not self-check for the mover. -/
def KeptMoveSafe (st : GS) (b : Board) (r c : ℤ) (color : PColor) (mv : MoveT) : Prop :=
  mv.1 = r ∧ mv.2.1 = c ∧ (mv.2.2.1, mv.2.2.2) ∈ genMoves st b r c ∧
    kingInCheck st (boardDoMoveSim st b r c mv.2.2.1 mv.2.2.2).2 color = false

theorem legalFilter_fold (st : GS) (b : Board) (r c : ℤ) (p : Piece)
    (hp : b.get r c = some p) (hlock : st.chessLock = false) :
    ∀ (ms : List (ℤ × ℤ)),
      (∀ m ∈ ms, m ∈ genMoves st b r c) →
      ∀ (acc : List MoveT × Board), acc.2 = b →
        (∀ mv ∈ acc.1, KeptMoveSafe st b r c p.color mv) →
        (ms.foldl (legalFilterStep st p.color r c) acc).2 = b ∧
        ∀ mv ∈ (ms.foldl (legalFilterStep st p.color r c) acc).1,
          KeptMoveSafe st b r c p.color mv := by
  intro ms
  induction ms with
  | nil =>
    intro _ acc hacc hmv
    exact ⟨hacc, hmv⟩
  | cons m rest ih =>
    intro hms acc hacc hmv
    have hmgen : m ∈ genMoves st b r c := hms m (List.mem_cons_self m rest)
    have hmin : InBounds m.1 m.2 := (genMoves_target st b r c p hp m hmgen).1
    have hmne : ¬(m.1 = r ∧ m.2 = c) := genMoves_ne_src st b r c p hp m hmgen
    have hguard : ¬(st.chessLock = true ∧ (in8 r c = false ∨ in8 m.1 m.2 = false)) := by
      rw [hlock]
      rintro ⟨h, _⟩
      cases h
    have hstep2 : (legalFilterStep st p.color r c acc m).2 = b := by
      unfold legalFilterStep
      dsimp only
      rw [hacc]
      exact boardDoMoveSim_undo st b r c m.1 m.2 p hp hmin hmne hguard
    have hstep1 : ∀ mv ∈ (legalFilterStep st p.color r c acc m).1,
        KeptMoveSafe st b r c p.color mv := by
      unfold legalFilterStep
      dsimp only
      rw [hacc]
      by_cases hill : kingInCheck st (boardDoMoveSim st b r c m.1 m.2).2 p.color
      · rw [if_pos hill]
        exact hmv
      · rw [if_neg hill]
        intro mv hmvmem
        rcases List.mem_append.mp hmvmem with h | h
        · exact hmv mv h
        · rcases List.mem_singleton.mp h with rfl
          exact ⟨rfl, rfl, hmgen, by simpa using hill⟩
    have := ih (fun m' hm' => hms m' (List.mem_cons_of_mem m hm'))
      (legalFilterStep st p.color r c acc m) hstep2 hstep1
    simpa using this

/-- `legal_moves_for_piece` leaves the board as it found it (every
simulate/undo bracket restores it) and every returned move is
self-check-free in the simulated position, as long as chess lock is
inactive. -/
theorem legalMovesForPiece_spec (st : GS) (b : Board) (r c : ℤ) (p : Piece)
    (hp : b.get r c = some p) (hlock : st.chessLock = false) :
    (legalMovesForPiece st b r c).2 = b ∧
    ∀ mv ∈ (legalMovesForPiece st b r c).1, KeptMoveSafe st b r c p.color mv := by
  unfold legalMovesForPiece
  rw [hp]
  dsimp only
  refine legalFilter_fold st b r c p hp hlock (genMoves st b r c) (fun m hm => hm)
    ([], b) rfl ?_
  intro mv hmv
  cases hmv

/-- With an empty source square `legal_moves_for_piece` returns nothing and
does not touch the board. -/
theorem legalMovesForPiece_empty (st : GS) (b : Board) (r c : ℤ)
    (hp : b.get r c = none) : legalMovesForPiece st b r c = ([], b) := by
  unfold legalMovesForPiece
  rw [hp]

end Bishops

namespace Bishops

open PColor

/-- C1 (amended): in the survival phase (chess lock inactive) every move
returned by `legal_moves_for_piece(board, r, c)` is safe for the mover:
applying the move (the transactional simulate application that the filter
itself uses) leaves `king_in_check` false for the moving piece's seat —
`king_in_check` already returns false for a sanctuary-immune seat, so the
immunity proviso is subsumed.  Under the duel chess lock the guarantee
fails: when the engine is absent the override falls back to this very
filter, whose lock-rejected simulate plus unmatched undo erases the mover,
after which the self-check test passes vacuously and the remaining moves
are returned unfiltered (see the counterexample below). -/
theorem C1_legal_moves_self_check_free (st : GS) (b : Board) (r c : ℤ) (p : Piece)
    (hlock : st.chessLock = false) (hp : b.get r c = some p) :
    ∀ mv ∈ (legalMovesForPiece st b r c).1,
      kingInCheck st (boardDoMoveSim st b r c mv.2.2.1 mv.2.2.2).2 p.color = false := by
  intro mv hmv
  exact ((legalMovesForPiece_spec st b r c p hp hlock).2 mv hmv).2.2.2

/-- C1 witness: in the initial position the white knight move
`(11,3) → (9,4)` is returned by the filter and its simulated application
leaves White out of check. -/
theorem C1_witness :
    initGS.chessLock = false ∧
    initialBoard.get 11 3 = some ⟨Kind.N, WHITE, false, 1⟩ ∧
    (11, 3, 9, 4) ∈ (legalMovesForPiece initGS initialBoard 11 3).1 ∧
    kingInCheck initGS (boardDoMoveSim initGS initialBoard 11 3 9 4).2 WHITE = false :=
  ⟨rfl, by decide, by decide,
    C1_legal_moves_self_check_free initGS initialBoard 11 3 ⟨Kind.N, WHITE, false, 1⟩
      rfl (by decide) (11, 3, 9, 4) (by decide)⟩

/-- A game state with the duel chess lock active (all other fields as at
game start). -/
def stLock : GS := { initGS with chessLock := true }

/-- A white king at `(2,5)` checked along row 2 by a black rook at `(2,9)`
(black king far away at `(9,9)` so Black counts as a living attacker). -/
def c1Board : Board := mkBoard
  [(2, 5, ⟨Kind.K, WHITE, false, 0⟩),
   (2, 9, ⟨Kind.R, BLACK, false, 1⟩),
   (9, 9, ⟨Kind.K, BLACK, false, 2⟩)]

/-- C1 counterexample: under the duel chess lock the claim fails on the
filter itself.  The white king at `(2,5)` is in check from the rook at
`(2,9)`.  The first pseudo-move `(1,4)` leaves the 8x8, so the lock guard
makes the simulate a no-op and the paired undo erases the king; every
later destination is then kept because `king_in_check` is vacuously false
for a kingless seat.  In particular `(2,5) → (2,4)` is returned, yet its
application leaves White still in check on the rook's ray. -/
theorem C1_counterexample :
    stLock.chessLock = true ∧
    c1Board.get 2 5 = some ⟨Kind.K, WHITE, false, 0⟩ ∧
    kingInCheck stLock c1Board WHITE = true ∧
    (2, 5, 2, 4) ∈ (legalMovesForPiece stLock c1Board 2 5).1 ∧
    kingInCheck stLock (boardDoMoveSim stLock c1Board 2 5 2 4).2 WHITE = true := by
  decide

end Bishops

namespace Bishops

open PColor

/-- C2 (amended): for every board and pseudo-legal move whose endpoints are
not rejected by the duel chess-lock guard, `board_do_move(simulate=True)`
followed by `board_undo_move` with the returned
`(captured, prev_has_moved, prev_kind, effects)` restores the board
bit-identically: every cell again holds the same piece object (same `pid`)
with the same kind and has-moved flag, and a captured piece is back at the
destination. -/
theorem C2_simulate_undo_roundtrip (st : GS) (b : Board) (sr sc : ℤ) (p : Piece)
    (hp : b.get sr sc = some p) (m : ℤ × ℤ) (hm : m ∈ genMoves st b sr sc)
    (hguard : ¬(st.chessLock = true ∧ (in8 sr sc = false ∨ in8 m.1 m.2 = false))) :
    boardUndoMove (boardDoMoveSim st b sr sc m.1 m.2).2 sr sc m.1 m.2
      (boardDoMoveSim st b sr sc m.1 m.2).1.cap
      (boardDoMoveSim st b sr sc m.1 m.2).1.prevHas
      (boardDoMoveSim st b sr sc m.1 m.2).1.prevKind
      (boardDoMoveSim st b sr sc m.1 m.2).1.effects.promoted = b :=
  boardDoMoveSim_undo st b sr sc m.1 m.2 p hp
    (genMoves_target st b sr sc p hp m hm).1 (genMoves_ne_src st b sr sc p hp m hm) hguard

/-- C2 witness: the round trip at the initial-position knight move
`(11,3) → (9,4)`. -/
theorem C2_witness :
    initialBoard.get 11 3 = some ⟨Kind.N, WHITE, false, 1⟩ ∧
    (9, 4) ∈ genMoves initGS initialBoard 11 3 ∧
    boardUndoMove (boardDoMoveSim initGS initialBoard 11 3 9 4).2 11 3 9 4
      (boardDoMoveSim initGS initialBoard 11 3 9 4).1.cap
      (boardDoMoveSim initGS initialBoard 11 3 9 4).1.prevHas
      (boardDoMoveSim initGS initialBoard 11 3 9 4).1.prevKind
      (boardDoMoveSim initGS initialBoard 11 3 9 4).1.effects.promoted = initialBoard :=
  ⟨by decide, by decide,
    C2_simulate_undo_roundtrip initGS initialBoard 11 3 ⟨Kind.N, WHITE, false, 1⟩
      (by decide) (9, 4) (by decide) (by decide)⟩

/-- A board with a single white rook at `(5, 5)`. -/
def rookBoard : Board := mkBoard [(5, 5, ⟨Kind.R, WHITE, false, 0⟩)]

/-- C2 counterexample: the claim quantifies over every board and every
pseudo-legal move, but under the duel chess lock the pseudo-legal rook
slide `(5,5) → (5,10)` leaves the 8x8, so `board_do_move(simulate=True)`
rejects it without mutating and the paired `board_undo_move` then erases
the rook from the source square — the board is not restored. -/
theorem C2_counterexample :
    stLock.chessLock = true ∧
    rookBoard.get 5 5 = some ⟨Kind.R, WHITE, false, 0⟩ ∧
    (5, 10) ∈ genMoves stLock rookBoard 5 5 ∧
    (boardUndoMove (boardDoMoveSim stLock rookBoard 5 5 5 10).2 5 5 5 10
      (boardDoMoveSim stLock rookBoard 5 5 5 10).1.cap
      (boardDoMoveSim stLock rookBoard 5 5 5 10).1.prevHas
      (boardDoMoveSim stLock rookBoard 5 5 5 10).1.prevKind
      (boardDoMoveSim stLock rookBoard 5 5 5 10).1.effects.promoted).get 5 5 = none := by
  refine ⟨rfl, by decide, by decide, by decide⟩

end Bishops

namespace Bishops

open PColor

/-! ### Duel seat resolution (`_resolve_duel_seats`) -/

/-- The result of `_resolve_duel_seats`: the survivor-to-duel-seat remap
and the origins of the White and Black duel seats. -/
structure DuelSeats where
  remap : PColor → Option PColor
  whiteOrigin : PColor
  blackOrigin : PColor
deriving DecidableEq

/-- `_resolve_duel_seats(color_a, color_b)`. -/
def resolveDuelSeats (a b : PColor) : DuelSeats :=
  let wb : PColor × PColor :=
    if a = WHITE ∨ b = WHITE then
      let other := if b = WHITE then a else b
      let other := if other = WHITE then a else other
      (WHITE, other)
    else if a = BLACK ∨ b = BLACK then
      let other := if b = BLACK then a else b
      let other := if other = BLACK then a else other
      (other, BLACK)
    else if (a = GREY ∨ a = PINK) ∧ (b = GREY ∨ b = PINK) ∧
        (a = GREY ∨ b = GREY) ∧ (a = PINK ∨ b = PINK) then
      (PINK, GREY)
    else (a, b)
  { remap := fun col =>
      if col = wb.1 then some WHITE else if col = wb.2 then some BLACK else none
    whiteOrigin := wb.1
    blackOrigin := wb.2 }

/-- C10: for distinct survivors the duel seat remap keeps a surviving
White seat on White and a surviving Black seat on Black, gives the other
survivor the remaining seat (the two origins are exactly the survivors),
maps the Grey/Pink pair to Pink=White and Grey=Black, and is deterministic
in the unordered pair. -/
theorem C10_resolve_duel_seats (a b : PColor) (hne : a ≠ b) :
    ((a = WHITE ∨ b = WHITE) → (resolveDuelSeats a b).whiteOrigin = WHITE) ∧
    ((a = BLACK ∨ b = BLACK) → (resolveDuelSeats a b).blackOrigin = BLACK) ∧
    ((resolveDuelSeats a b).whiteOrigin = a ∨ (resolveDuelSeats a b).whiteOrigin = b) ∧
    ((resolveDuelSeats a b).blackOrigin = a ∨ (resolveDuelSeats a b).blackOrigin = b) ∧
    (resolveDuelSeats a b).whiteOrigin ≠ (resolveDuelSeats a b).blackOrigin ∧
    (((a = GREY ∧ b = PINK) ∨ (a = PINK ∧ b = GREY)) →
      (resolveDuelSeats a b).whiteOrigin = PINK ∧
      (resolveDuelSeats a b).blackOrigin = GREY) ∧
    resolveDuelSeats a b = resolveDuelSeats b a ∧
    (resolveDuelSeats a b).remap (resolveDuelSeats a b).whiteOrigin = some WHITE ∧
    (resolveDuelSeats a b).remap (resolveDuelSeats a b).blackOrigin = some BLACK := by
  revert hne
  cases a <;> cases b <;> decide

/-- C10 witness: the Grey/Pink pair. -/
theorem C10_witness :
    GREY ≠ PINK ∧
    (resolveDuelSeats GREY PINK).whiteOrigin = PINK ∧
    (resolveDuelSeats GREY PINK).blackOrigin = GREY :=
  ⟨by decide, ((C10_resolve_duel_seats GREY PINK (by decide)).2.2.2.2.2.1
      (Or.inl ⟨rfl, rfl⟩)).1,
    ((C10_resolve_duel_seats GREY PINK (by decide)).2.2.2.2.2.1
      (Or.inl ⟨rfl, rfl⟩)).2⟩

end Bishops

namespace Bishops

open PColor

/-! ### Cell-enumeration lemmas and fold lemmas for board rebuilds -/

theorem mem_allCells (r c : ℤ) : (r, c) ∈ allCells ↔ InBounds r c := by
  constructor
  · intro h
    rcases List.mem_flatMap.mp h with ⟨rn, hrn, hc⟩
    rcases List.mem_map.mp hc with ⟨cn, hcn, heq⟩
    rw [List.mem_range] at hrn hcn
    cases heq
    refine ⟨?_, ?_, ?_, ?_⟩ <;> simp <;> omega
  · intro h
    obtain ⟨h1, h2, h3, h4⟩ := h
    refine List.mem_flatMap.mpr ⟨r.toNat, ?_, List.mem_map.mpr ⟨c.toNat, ?_, ?_⟩⟩
    · rw [List.mem_range]; omega
    · rw [List.mem_range]; omega
    · rw [Prod.mk.injEq]
      constructor <;> omega

/-- The arena cells cleared by the first loop of `_enter_duel_kqbb`
(`rr, cc` in `CH_MIN..CH_MAX`). -/
def arenaCells : List (ℤ × ℤ) :=
  (List.range 8).flatMap fun (i : ℕ) => (List.range 8).map fun (j : ℕ) =>
    (CH_MIN + (i : ℤ), CH_MIN + (j : ℤ))

theorem in8_iff (r c : ℤ) : in8 r c = true ↔ 2 ≤ r ∧ r ≤ 9 ∧ 2 ≤ c ∧ c ≤ 9 := by
  simp [in8, inChessArea, CH_MIN, CH_MAX, and_assoc]

theorem mem_arenaCells (r c : ℤ) : (r, c) ∈ arenaCells ↔ in8 r c = true := by
  rw [in8_iff]
  constructor
  · intro h
    rcases List.mem_flatMap.mp h with ⟨i, hi, hc⟩
    rcases List.mem_map.mp hc with ⟨j, hj, heq⟩
    rw [List.mem_range] at hi hj
    cases heq
    simp only [CH_MIN]
    refine ⟨?_, ?_, ?_, ?_⟩ <;> omega
  · intro h
    obtain ⟨h1, h2, h3, h4⟩ := h
    refine List.mem_flatMap.mpr ⟨(r - 2).toNat, ?_, List.mem_map.mpr ⟨(c - 2).toNat, ?_, ?_⟩⟩
    · rw [List.mem_range]; omega
    · rw [List.mem_range]; omega
    · simp only [CH_MIN]
      rw [Prod.mk.injEq]
      constructor <;> omega

/-- Folding unconditional clears over a cell list. -/
theorem clearFold_grid (L : List (ℤ × ℤ)) (b : Board) (r c : ℤ) :
    ((L.foldl (fun bb rc => bb.set rc.1 rc.2 none) b).grid r c) =
      if (r, c) ∈ L ∧ InBounds r c then none else b.grid r c := by
  induction L generalizing b with
  | nil => simp
  | cons rc L ih =>
    rw [List.foldl_cons, ih]
    by_cases h1 : (r, c) ∈ L ∧ InBounds r c
    · rw [if_pos h1, if_pos ⟨List.mem_cons_of_mem rc h1.1, h1.2⟩]
    · rw [if_neg h1]
      by_cases h2 : (r, c) = rc ∧ InBounds r c
      · rw [if_pos ⟨List.mem_cons.mpr (Or.inl h2.1), h2.2⟩]
        have : InBounds rc.1 rc.2 := by rw [← h2.1]; exact h2.2
        rw [Board.grid_set _ _ _ _ _ _ this]
        rw [if_pos ⟨congrArg Prod.fst h2.1, congrArg Prod.snd h2.1⟩]
      · have hne : ¬((r, c) ∈ rc :: L ∧ InBounds r c) := by
          rintro ⟨hmem, hin⟩
          rcases List.mem_cons.mp hmem with h | h
          · exact h2 ⟨h, hin⟩
          · exact h1 ⟨h, hin⟩
        rw [if_neg hne]
        unfold Board.set
        by_cases hrcin : InBounds rc.1 rc.2
        · rw [if_pos hrcin]
          dsimp only
          rw [if_neg ?_]
          rintro ⟨ha, hb⟩
          by_cases hin : InBounds r c
          · exact h2 ⟨by rw [ha, hb], hin⟩
          · have : InBounds rc.1 rc.2 := hrcin
            rw [← ha, ← hb] at this
            exact hin this
        · rw [if_neg hrcin]

/-- Folding conditional clears (`if P rc then set none`) over a cell
list. -/
theorem clearCondFold_grid (P : ℤ × ℤ → Bool) (L : List (ℤ × ℤ)) (b : Board) (r c : ℤ) :
    ((L.foldl (fun bb rc => if P rc then bb.set rc.1 rc.2 none else bb) b).grid r c) =
      if (r, c) ∈ L ∧ P (r, c) = true ∧ InBounds r c then none else b.grid r c := by
  induction L generalizing b with
  | nil => simp
  | cons rc L ih =>
    rw [List.foldl_cons, ih]
    by_cases h1 : (r, c) ∈ L ∧ P (r, c) = true ∧ InBounds r c
    · rw [if_pos h1, if_pos ⟨List.mem_cons_of_mem rc h1.1, h1.2⟩]
    · rw [if_neg h1]
      by_cases h2 : (r, c) = rc ∧ P (r, c) = true ∧ InBounds r c
      · have hcond : (r, c) ∈ rc :: L ∧ P (r, c) = true ∧ InBounds r c :=
          ⟨List.mem_cons.mpr (Or.inl h2.1), h2.2⟩
        rw [if_pos hcond]
        have hPrc : P rc = true := by rw [← h2.1]; exact h2.2.1
        have hrcin : InBounds rc.1 rc.2 := by rw [← h2.1]; exact h2.2.2
        have hpair : r = rc.1 ∧ c = rc.2 :=
          ⟨congrArg Prod.fst h2.1, congrArg Prod.snd h2.1⟩
        rw [if_pos hPrc, Board.grid_set _ _ _ _ _ _ hrcin, if_pos hpair]
      · have hne : ¬((r, c) ∈ rc :: L ∧ P (r, c) = true ∧ InBounds r c) := by
          rintro ⟨hmem, hP, hin⟩
          rcases List.mem_cons.mp hmem with h | h
          · exact h2 ⟨h, hP, hin⟩
          · exact h1 ⟨h, hP, hin⟩
        rw [if_neg hne]
        by_cases hPrc : P rc = true
        · rw [if_pos hPrc]
          unfold Board.set
          by_cases hrcin : InBounds rc.1 rc.2
          · rw [if_pos hrcin]
            dsimp only
            rw [if_neg ?_]
            rintro ⟨ha, hb⟩
            by_cases hin : InBounds r c
            · refine h2 ⟨by rw [ha, hb], ?_, hin⟩
              rw [ha, hb]
              exact hPrc
            · have : InBounds rc.1 rc.2 := hrcin
              rw [← ha, ← hb] at this
              exact hin this
          · rw [if_neg hrcin]
        · rw [if_neg hPrc]

/-- The last write wins: lookup for a fold of placements. -/
def lookupLast (L : List (ℤ × ℤ × Piece)) (r c : ℤ) : Option Piece :=
  (L.reverse.find? fun x => decide (x.1 = r) && decide (x.2.1 = c)).map fun x => x.2.2

theorem lookupLast_cons (x : ℤ × ℤ × Piece) (L : List (ℤ × ℤ × Piece)) (r c : ℤ) :
    lookupLast (x :: L) r c =
      match lookupLast L r c with
      | some p => some p
      | none => if x.1 = r ∧ x.2.1 = c then some x.2.2 else none := by
  unfold lookupLast
  rw [show (x :: L).reverse = L.reverse ++ [x] by simp, List.find?_append]
  rcases hfind : List.find? (fun y => decide (y.1 = r) && decide (y.2.1 = c)) L.reverse
    with _ | y
  · rw [hfind]
    simp only [Option.none_or, Option.map_none]
    rw [List.find?_singleton]
    by_cases hx : x.1 = r ∧ x.2.1 = c
    · rw [if_pos (by simp [hx.1, hx.2]), if_pos hx]
      simp
    · rw [if_neg (by simpa using hx), if_neg hx]
      simp
  · rw [hfind]
    simp

theorem placeFold_grid (L : List (ℤ × ℤ × Piece)) (b : Board) (r c : ℤ) :
    ((L.foldl (fun bb x => bb.set x.1 x.2.1 (some x.2.2)) b).grid r c) =
      if InBounds r c then
        match lookupLast L r c with
        | some p => some p
        | none => b.grid r c
      else b.grid r c := by
  induction L generalizing b with
  | nil => simp [lookupLast]
  | cons x L ih =>
    rw [List.foldl_cons, ih, lookupLast_cons]
    by_cases hin : InBounds r c
    · rw [if_pos hin, if_pos hin]
      rcases hl : lookupLast L r c with _ | p
      · dsimp only
        by_cases hx : x.1 = r ∧ x.2.1 = c
        · rw [if_pos hx]
          unfold Board.set
          rw [if_pos (by rw [hx.1, hx.2]; exact hin)]
          dsimp only
          rw [if_pos ⟨hx.1.symm, hx.2.symm⟩]
        · rw [if_neg hx]
          unfold Board.set
          by_cases hxin : InBounds x.1 x.2.1
          · rw [if_pos hxin]
            dsimp only
            rw [if_neg (by rintro ⟨ha, hb⟩; exact hx ⟨ha.symm, hb.symm⟩)]
          · rw [if_neg hxin]
      · rfl
    · rw [if_neg hin, if_neg hin]
      unfold Board.set
      by_cases hxin : InBounds x.1 x.2.1
      · rw [if_pos hxin]
        dsimp only
        rw [if_neg ?_]
        rintro ⟨ha, hb⟩
        rw [ha, hb] at hin
        exact hin hxin
      · rw [if_neg hxin]

end Bishops

namespace Bishops

open PColor

/-! ### The duel transition (`_enter_duel_kqbb`) -/

/-- The standard-chess placements seeded by `_enter_duel_kqbb`: White back
rank on `CH_MAX`, White pawns on `CH_MAX - 1`, Black back rank on
`CH_MIN`, Black pawns on `CH_MIN + 1`.  Fresh `Piece` objects, `pid`s
enumerating placement order from 200. -/
def duelPlacements : List (ℤ × ℤ × Piece) :=
  ((List.range 8).map fun (i : ℕ) =>
    ((CH_MAX, CH_MIN + (i : ℤ), ⟨backStd.getD i Kind.R, WHITE, false, 200 + i⟩) :
      ℤ × ℤ × Piece)) ++
  ((List.range 8).map fun (i : ℕ) =>
    ((CH_MAX - 1, CH_MIN + (i : ℤ), ⟨Kind.P, WHITE, false, 208 + i⟩) : ℤ × ℤ × Piece)) ++
  ((List.range 8).map fun (i : ℕ) =>
    ((CH_MIN, CH_MIN + (i : ℤ), ⟨backStd.getD i Kind.R, BLACK, false, 216 + i⟩) :
      ℤ × ℤ × Piece)) ++
  ((List.range 8).map fun (i : ℕ) =>
    ((CH_MIN + 1, CH_MIN + (i : ℤ), ⟨Kind.P, BLACK, false, 224 + i⟩) : ℤ × ℤ × Piece))

/-- The duel setup FEN pushed into python-chess by `_enter_duel_kqbb`. -/
def duelStartFen : String := "rnbqkbnr/pppppppp/8/8/8/8/PPPPPPPP/RNBQKBNR w KQkq - 0 1"

/-- The board-clearing phase of `_enter_duel_kqbb`: clear the 8x8 region,
then every square outside it. -/
def enterDuelCleared (b : Board) : Board :=
  let b1 := arenaCells.foldl (fun bb rc => bb.set rc.1 rc.2 none) b
  allCells.foldl (fun bb rc => if !(in8 rc.1 rc.2) then bb.set rc.1 rc.2 none else bb) b1

/-- `_enter_duel_kqbb(bd, state)`: clear the whole board, seed the standard
chess starting position for the remapped White/Black seats, and flip the
state into the locked duel (two-stage active, finalists White/Black,
entered/reduced flags, chess lock, half-move counter and turn reset,
White to move, python-chess seeded from the standard FEN). -/
def enterDuelKqbb (b : Board) (st : GS) : Board × GS :=
  let b3 := duelPlacements.foldl (fun bb x => bb.set x.1 x.2.1 (some x.2.2))
    (enterDuelCleared b)
  (b3,
    { st with
      twoStageActive := true
      finalA := some WHITE
      finalB := some BLACK
      entered := fun col => if col = WHITE ∨ col = BLACK then true else st.entered col
      reducedApplied := fun col => if col = WHITE ∨ col = BLACK then true else st.reducedApplied col
      chessLock := true
      turnCounter := 0
      turnI := colorIndex WHITE
      halfMoves := 0
      chessBoardFen := some duelStartFen })

/-- The position seeded by the duel transition, as a standalone board. -/
def duelStartBoard : Board :=
  duelPlacements.foldl (fun bb x => bb.set x.1 x.2.1 (some x.2.2)) emptyBoard

/-- The observable signature of a piece: kind, colour, has-moved flag. -/
def pieceSig (p : Piece) : Kind × PColor × Bool := (p.kind, p.color, p.hasMoved)

theorem enterDuelCleared_get (b : Board) (r c : ℤ) :
    (enterDuelCleared b).get r c = none := by
  unfold enterDuelCleared Board.get
  by_cases hin : InBounds r c
  · rw [if_pos hin]
    dsimp only
    rw [clearCondFold_grid, clearFold_grid]
    by_cases h8 : in8 r c = true
    · rw [if_neg ?_, if_pos ⟨(mem_arenaCells r c).mpr h8, hin⟩]
      rintro ⟨_, hP, _⟩
      simp only [Bool.not_eq_eq_eq_not, Bool.not_true] at hP
      rw [h8] at hP
      cases hP
    · rw [if_pos ⟨(mem_allCells r c).mpr hin, by simpa using h8, hin⟩]
  · rw [if_neg hin]

/-- The board produced by `_enter_duel_kqbb` agrees with `duelStartBoard`
on every square. -/
theorem enterDuelKqbb_get (b : Board) (st : GS) (r c : ℤ) :
    (enterDuelKqbb b st).1.get r c = duelStartBoard.get r c := by
  unfold enterDuelKqbb duelStartBoard Board.get
  dsimp only
  by_cases hin : InBounds r c
  · rw [if_pos hin, if_pos hin, placeFold_grid, placeFold_grid, if_pos hin, if_pos hin]
    rcases hl : lookupLast duelPlacements r c with _ | p
    · dsimp only
      have h1 : (enterDuelCleared b).get r c = none := enterDuelCleared_get b r c
      unfold Board.get at h1
      rw [if_pos hin] at h1
      rw [h1]
      rfl
    · rfl
  · rw [if_neg hin, if_neg hin]

end Bishops

namespace Bishops

open PColor

set_option maxRecDepth 4000 in
theorem duelPlacements_in8 : ∀ x ∈ duelPlacements, in8 x.1 x.2.1 = true := by decide

theorem duelStartBoard_outside (r c : ℤ) (h8 : in8 r c = false) :
    duelStartBoard.get r c = none := by
  unfold duelStartBoard Board.get
  by_cases hin : InBounds r c
  · rw [if_pos hin, placeFold_grid, if_pos hin]
    rcases hl : lookupLast duelPlacements r c with _ | p
    · rfl
    · exfalso
      unfold lookupLast at hl
      rcases Option.map_eq_some'.mp hl with ⟨y, hy, _⟩
      have hpred := List.find?_some hy
      have hmem : y ∈ duelPlacements := by
        have := List.mem_of_find?_eq_some hy
        exact (List.mem_reverse).mp this
      simp only [Bool.and_eq_true, decide_eq_true_eq] at hpred
      have := duelPlacements_in8 y hmem
      rw [hpred.1, hpred.2] at this
      rw [h8] at this
      cases this
  · rw [if_neg hin]

set_option maxRecDepth 16000 in
/-- C5: after `_enter_duel_kqbb` the board observably equals the seeded
duel board: the inner 8x8 holds exactly the standard chess starting
position for the remapped White and Black seats (32 pieces, all with the
has-moved flag clear, so castling rights are intact), every square outside
the 8x8 is empty, the engine is locked to the 8x8 (`chess_lock`), the
python-chess mirror is seeded from the standard full-castling FEN, and
White moves first (turn index reset to White, turn counter 0). -/
theorem C5_enter_duel_seeds_standard_duel (b : Board) (st : GS) :
    (∀ r c, (enterDuelKqbb b st).1.get r c = duelStartBoard.get r c) ∧
    (∀ r c, in8 r c = false → duelStartBoard.get r c = none) ∧
    (∀ i : Fin 8, (duelStartBoard.get CH_MAX (CH_MIN + (i : ℤ))).map pieceSig =
      some (backStd.getD i Kind.R, WHITE, false)) ∧
    (∀ i : Fin 8, (duelStartBoard.get (CH_MAX - 1) (CH_MIN + (i : ℤ))).map pieceSig =
      some (Kind.P, WHITE, false)) ∧
    (∀ i : Fin 8, (duelStartBoard.get CH_MIN (CH_MIN + (i : ℤ))).map pieceSig =
      some (backStd.getD i Kind.R, BLACK, false)) ∧
    (∀ i : Fin 8, (duelStartBoard.get (CH_MIN + 1) (CH_MIN + (i : ℤ))).map pieceSig =
      some (Kind.P, BLACK, false)) ∧
    (allCells.filterMap fun rc => duelStartBoard.get rc.1 rc.2).length = 32 ∧
    (∀ rc ∈ allCells, ∀ p, duelStartBoard.get rc.1 rc.2 = some p → p.hasMoved = false) ∧
    (enterDuelKqbb b st).2.chessLock = true ∧
    (enterDuelKqbb b st).2.twoStageActive = true ∧
    (enterDuelKqbb b st).2.finalA = some WHITE ∧
    (enterDuelKqbb b st).2.finalB = some BLACK ∧
    (enterDuelKqbb b st).2.entered WHITE = true ∧
    (enterDuelKqbb b st).2.entered BLACK = true ∧
    (enterDuelKqbb b st).2.chessBoardFen = some duelStartFen ∧
    (enterDuelKqbb b st).2.turnI = colorIndex WHITE ∧
    turnOrderAt (enterDuelKqbb b st).2.turnI = WHITE ∧
    (enterDuelKqbb b st).2.turnCounter = 0 ∧
    (enterDuelKqbb b st).2.halfMoves = 0 :=
  ⟨enterDuelKqbb_get b st, duelStartBoard_outside,
    by decide, by decide, by decide, by decide, by decide, by decide,
    rfl, rfl, rfl, rfl, rfl, rfl, rfl, rfl, rfl, rfl, rfl⟩

end Bishops

namespace Bishops

open PColor

/-- C5 witness: instantiating the duel-transition theorem at the
four-player initial position and the square `(0, 0)` (outside the arena,
hence empty after the teleport). -/
theorem C5_witness :
    in8 0 0 = false ∧
    (enterDuelKqbb initialBoard initGS).1.get 0 0 = duelStartBoard.get 0 0 ∧
    duelStartBoard.get 0 0 = none :=
  ⟨by decide,
    (C5_enter_duel_seeds_standard_duel initialBoard initGS).1 0 0,
    (C5_enter_duel_seeds_standard_duel initialBoard initGS).2.1 0 0 (by decide)⟩

end Bishops

namespace Bishops

open PColor

/-! ### C6: pawn auto-promotion -/

/-- The mover as stored on the destination square by `board_do_move`:
has-moved set, kind promoted to Queen exactly on the colour's promotion
line. -/
def moverAfter (p : Piece) (er ec : ℤ) : Piece :=
  { p with
    hasMoved := true
    kind :=
      if p.kind = Kind.P ∧ promoLine p.color er ec = true then Kind.Q else p.kind }

/-- C6 (amended): applying `board_do_move` places the mover on the
destination with the has-moved flag set, and a pawn's kind changes to
Queen exactly when the destination lies on its colour's promotion line
(WHITE row `CH_MIN`, BLACK row `CH_MAX`, GREY column `CH_MAX`, PINK column
`CH_MIN`) — whether or not the destination is inside the 8x8 arena; no
other move changes a piece's kind, and the `promoted` effect is recorded
exactly in that case. -/
theorem C6_promotion_iff_promo_line (st : GS) (b : Board) (sr sc er ec : ℤ) (p : Piece)
    (hp : b.get sr sc = some p) (hin : InBounds er ec)
    (hguard : ¬(st.chessLock = true ∧ (in8 sr sc = false ∨ in8 er ec = false))) :
    (boardDoMoveSim st b sr sc er ec).2.get er ec = some (moverAfter p er ec) ∧
    ((boardDoMoveSim st b sr sc er ec).1.effects.promoted = true ↔
      (p.kind = Kind.P ∧ promoLine p.color er ec = true)) := by
  unfold boardDoMoveSim moverAfter
  rw [hp, if_neg hguard]
  dsimp only
  constructor
  · exact Board.get_set_same _ er ec _ hin
  · simp

/-- C6 witness: a white pawn stepping from `(3,2)` to `(2,2)` (the arena's
inner edge for White) promotes to Queen with the effect recorded. -/
theorem C6_witness :
    (mkBoard [(3, 2, ⟨Kind.P, WHITE, true, 0⟩)]).get 3 2 = some ⟨Kind.P, WHITE, true, 0⟩ ∧
    moverAfter ⟨Kind.P, WHITE, true, 0⟩ 2 2 = ⟨Kind.Q, WHITE, true, 0⟩ ∧
    ((boardDoMoveSim initGS (mkBoard [(3, 2, ⟨Kind.P, WHITE, true, 0⟩)]) 3 2 2 2).2.get 2 2 =
      some (moverAfter ⟨Kind.P, WHITE, true, 0⟩ 2 2) ∧
    ((boardDoMoveSim initGS (mkBoard [(3, 2, ⟨Kind.P, WHITE, true, 0⟩)]) 3 2 2 2).1.effects.promoted
        = true ↔
      ((⟨Kind.P, WHITE, true, 0⟩ : Piece).kind = Kind.P ∧ promoLine WHITE 2 2 = true))) :=
  ⟨by decide, by decide,
    C6_promotion_iff_promo_line initGS (mkBoard [(3, 2, ⟨Kind.P, WHITE, true, 0⟩)]) 3 2 2 2
      ⟨Kind.P, WHITE, true, 0⟩ (by decide) (by decide) (by decide)⟩

/-- C6 counterexample: the claim says a pawn promotes only on the inner
edge of the 8x8 arena, but a white pawn whose pseudo-legal forward step
ends at `(2,0)` — row `CH_MIN` outside the arena's columns — still
promotes to Queen. -/
theorem C6_counterexample :
    (mkBoard [(3, 0, ⟨Kind.P, WHITE, true, 0⟩)]).get 3 0 = some ⟨Kind.P, WHITE, true, 0⟩ ∧
    (2, 0) ∈ genMoves initGS (mkBoard [(3, 0, ⟨Kind.P, WHITE, true, 0⟩)]) 3 0 ∧
    in8 2 0 = false ∧
    ((boardDoMoveSim initGS (mkBoard [(3, 0, ⟨Kind.P, WHITE, true, 0⟩)]) 3 0 2 0).2.get 2 0).map
      pieceSig = some (Kind.Q, WHITE, true) ∧
    (boardDoMoveSim initGS (mkBoard [(3, 0, ⟨Kind.P, WHITE, true, 0⟩)]) 3 0 2 0).1.effects.promoted
      = true := by
  refine ⟨by decide, by decide, by decide, by decide, by decide⟩

end Bishops

namespace Bishops

open PColor

/-! ### Elimination (`eliminate_color`) and reachable states -/

/-- `_remove_color_pieces(board, color)`. -/
def removeColorPieces (b : Board) (color : PColor) : Board :=
  allCells.foldl (fun bb rc =>
    match bb.get rc.1 rc.2 with
    | some p => if p.color = color then bb.set rc.1 rc.2 none else bb
    | none => bb) b

/-- `eliminate_color(board, gs, color)` (non-flash path): no-op when the
colour has neither king nor pieces, otherwise purge the colour's pieces
and reset its per-seat bookkeeping. -/
def eliminateColor (b : Board) (st : GS) (color : PColor) : Board × GS :=
  if (findKing b color).isNone ∧
      ¬(allCells.any fun rc =>
        match b.get rc.1 rc.2 with
        | some p => p.color = color
        | none => false) then
    (b, st)
  else
    (removeColorPieces b color,
      { st with
        cornerImmune := fun col => if col = color then false else st.cornerImmune col
        cornerPromoted := fun col => if col = color then false else st.cornerPromoted col
        cornerEvictPending := fun col =>
          if col = color then false else st.cornerEvictPending col
        cornerInCorner := fun col => if col = color then false else st.cornerInCorner col
        entered := fun col => if col = color then false else st.entered col
        reducedApplied := fun col => if col = color then false else st.reducedApplied col })

/-- Game states reachable from a fresh game by real move applications,
eliminations, and the duel teleport. -/
inductive Reachable : Board → GS → Prop where
  | init : Reachable initialBoard initGS
  | move (b : Board) (st : GS) (sr sc er ec : ℤ) (res : DoRes) (b' : Board) (st' : GS) :
      Reachable b st → boardDoMoveReal st b sr sc er ec = some (res, b', st') →
      Reachable b' st'
  | elim (b : Board) (st : GS) (col : PColor) : Reachable b st →
      Reachable (eliminateColor b st col).1 (eliminateColor b st col).2
  | duel (b : Board) (st : GS) : Reachable b st →
      Reachable (enterDuelKqbb b st).1 (enterDuelKqbb b st).2

/-- `activate_two_stage_if_needed` only touches the two-stage flags, the
board and the pawn directions. -/
theorem activate_fields (b : Board) (st : GS) :
    (activateTwoStageIfNeeded b st).2.cornerImmune = st.cornerImmune ∧
    (activateTwoStageIfNeeded b st).2.cornerPromoted = st.cornerPromoted ∧
    (activateTwoStageIfNeeded b st).2.cornerEvictPending = st.cornerEvictPending ∧
    (activateTwoStageIfNeeded b st).2.posCounts = st.posCounts ∧
    (activateTwoStageIfNeeded b st).2.drawByRepetition = st.drawByRepetition := by
  unfold activateTwoStageIfNeeded performTwoStageMigration
  dsimp only
  split
  · exact ⟨rfl, rfl, rfl, rfl, rfl⟩
  · split
    · exact ⟨rfl, rfl, rfl, rfl, rfl⟩
    · split
      · split
        · exact ⟨rfl, rfl, rfl, rfl, rfl⟩
        · exact ⟨rfl, rfl, rfl, rfl, rfl⟩
      · exact ⟨rfl, rfl, rfl, rfl, rfl⟩

/-- The `GameState` bookkeeping of a real move leaves the
corner-sanctuary flags untouched. -/
theorem stAfterCore_corner_fields (st : GS) (b : Board) (sr sc er ec : ℤ) :
    (stAfterCore st b sr sc er ec).cornerImmune = st.cornerImmune ∧
    (stAfterCore st b sr sc er ec).cornerPromoted = st.cornerPromoted ∧
    (stAfterCore st b sr sc er ec).cornerEvictPending = st.cornerEvictPending := by
  unfold stAfterCore
  dsimp only
  split
  · exact ⟨rfl, rfl, rfl⟩
  · exact ⟨rfl, rfl, rfl⟩

/-- A real `board_do_move` never touches the corner-sanctuary flags (the
code that would update them sits after an unconditional `return` in
`gen_moves` and is unreachable). -/
theorem boardDoMoveReal_corner_fields (st : GS) (b : Board) (sr sc er ec : ℤ)
    (res : DoRes) (b' : Board) (st' : GS)
    (h : boardDoMoveReal st b sr sc er ec = some (res, b', st')) :
    st'.cornerImmune = st.cornerImmune ∧
    st'.cornerPromoted = st.cornerPromoted ∧
    st'.cornerEvictPending = st.cornerEvictPending := by
  unfold boardDoMoveReal at h
  split at h
  · cases h
  · dsimp only at h
    simp only [Option.some.injEq, Prod.mk.injEq] at h
    obtain ⟨-, -, h3⟩ := h
    rw [← h3]
    obtain ⟨ha1, ha2, ha3, -, -⟩ :=
      activate_fields (movedBoard st b sr sc er ec) (stAfterCore st b sr sc er ec)
    obtain ⟨hc1, hc2, hc3⟩ := stAfterCore_corner_fields st b sr sc er ec
    exact ⟨ha1.trans hc1, ha2.trans hc2, ha3.trans hc3⟩

end Bishops

namespace Bishops

open PColor

/-- In every reachable state the corner-sanctuary flags are still their
initial `False`: no transition of the shipped code ever sets them (the
only writers, `_update_corner_state` / `_handle_corner_entry`, are called
exclusively from statements placed after the unconditional
`return moves` of `gen_moves`, which can never execute). -/
theorem reachable_corner_flags (b : Board) (st : GS) (h : Reachable b st) :
    ∀ col, st.cornerImmune col = false ∧ st.cornerPromoted col = false ∧
      st.cornerEvictPending col = false := by
  induction h with
  | init => intro col; exact ⟨rfl, rfl, rfl⟩
  | move b0 st0 sr sc er ec res b' st' hr hmove ih =>
    intro col
    obtain ⟨h1, h2, h3⟩ :=
      boardDoMoveReal_corner_fields st0 b0 sr sc er ec res b' st' hmove
    refine ⟨?_, ?_, ?_⟩
    · rw [h1]; exact (ih col).1
    · rw [h2]; exact (ih col).2.1
    · rw [h3]; exact (ih col).2.2
  | elim b0 st0 col2 hr ih =>
    intro col
    unfold eliminateColor
    split
    · exact ih col
    · dsimp only
      refine ⟨?_, ?_, ?_⟩
      · by_cases hc : col = col2
        · simp [hc]
        · simp only [hc, if_false]
          exact (ih col).1
      · by_cases hc : col = col2
        · simp [hc]
        · simp only [hc, if_false]
          exact (ih col).2.1
      · by_cases hc : col = col2
        · simp [hc]
        · simp only [hc, if_false]
          exact (ih col).2.2
  | duel b0 st0 hr ih =>
    intro col
    exact ih col

/-- A board with the White king inside its own home corner, three White
queens, a Grey rook aligned on the king's file, and living kings for all
four seats. -/
def sanctuaryBoard : Board := mkBoard
  [(10, 1, ⟨Kind.K, WHITE, true, 0⟩),
   (8, 4, ⟨Kind.Q, WHITE, true, 1⟩),
   (8, 5, ⟨Kind.Q, WHITE, true, 2⟩),
   (8, 6, ⟨Kind.Q, WHITE, true, 3⟩),
   (5, 1, ⟨Kind.R, GREY, true, 4⟩),
   (0, 5, ⟨Kind.K, GREY, true, 5⟩),
   (1, 7, ⟨Kind.K, BLACK, true, 6⟩),
   (6, 11, ⟨Kind.K, PINK, true, 7⟩)]

/-- C3: the claimed sanctuary immunity never materialises.  In every
reachable game state `corner_immune` is still false for every seat, so
`king_in_check` performs the geometric test even for a king in its own
corner with three queens; on such a board with the king's file attacked by
an enemy rook, `king_in_check` returns true, contradicting the claim. -/
theorem C3_corner_immunity_never_granted :
    (∀ (b : Board) (st : GS), Reachable b st → ∀ col, st.cornerImmune col = false) ∧
    findKing sanctuaryBoard WHITE = some (10, 1) ∧
    cornerOwnerAt 10 1 = some WHITE ∧
    (allCells.filter fun rc =>
      match sanctuaryBoard.get rc.1 rc.2 with
      | some p => decide (p.color = WHITE) && decide (p.kind = Kind.Q)
      | none => false).length = 3 ∧
    kingInCheck initGS sanctuaryBoard WHITE = true :=
  ⟨fun b st h col => (reachable_corner_flags b st h col).1,
    by decide, by decide, by decide, by decide⟩

/-- C3 witness: the invariant instantiated at the initial state, together
with the concrete geometric check. -/
theorem C3_witness :
    initGS.cornerImmune WHITE = false ∧ kingInCheck initGS sanctuaryBoard WHITE = true :=
  ⟨(C3_corner_immunity_never_granted).1 initialBoard initGS Reachable.init WHITE,
    (C3_corner_immunity_never_granted).2.2.2.2⟩

/-- A board where the unmoved White king stands next to its home corner
with two surviving White bishops, all four seats alive. -/
def kingEntryBoard : Board := mkBoard
  [(10, 2, ⟨Kind.K, WHITE, false, 0⟩),
   (6, 6, ⟨Kind.B, WHITE, false, 1⟩),
   (7, 7, ⟨Kind.B, WHITE, false, 2⟩),
   (0, 5, ⟨Kind.K, GREY, true, 3⟩),
   (1, 7, ⟨Kind.K, BLACK, true, 4⟩),
   (6, 11, ⟨Kind.K, PINK, true, 5⟩)]

/-- The piece signature at a cell after the C4 corner-entry move. -/
def c4CellAfter (r c : ℤ) : Option (Option (Kind × PColor × Bool)) :=
  (boardDoMoveReal initGS kingEntryBoard 10 2 10 1).map fun x =>
    (x.2.1.get r c).map pieceSig

/-- The White guardian-promotion and immunity flags after the C4
corner-entry move. -/
def c4FlagsAfter : Option (Bool × Bool) :=
  (boardDoMoveReal initGS kingEntryBoard 10 2 10 1).map fun x =>
    (x.2.2.cornerPromoted WHITE, x.2.2.cornerImmune WHITE)

/-- C4: evaluating the real (non-simulated) `board_do_move` at a first-ever
corner entry of the White king: the move is pseudo-legal and applies, but
both surviving White bishops keep kind `B` and `corner_promoted` stays
false — the guardian promotion never fires (its only call site is dead
code after `return moves` in `gen_moves`). -/
theorem C4_guardian_promotion_never_fires :
    cornerOwnerAt 10 2 = none ∧
    cornerOwnerAt 10 1 = some WHITE ∧
    (10, 1) ∈ genMoves initGS kingEntryBoard 10 2 ∧
    c4CellAfter 10 1 = some (some (Kind.K, WHITE, true)) ∧
    c4CellAfter 6 6 = some (some (Kind.B, WHITE, false)) ∧
    c4CellAfter 7 7 = some (some (Kind.B, WHITE, false)) ∧
    c4FlagsAfter = some (false, false) :=
  ⟨by decide, by decide, by decide, by decide, by decide, by decide, by decide⟩

end Bishops

namespace Bishops

open PColor

/-! ### C7: repetition counting and the threefold draw flag -/

/-- The canonical repetition key recorded by a real move: the key of the
post-move position (the two-stage flag, pawn directions and turn parity
are unchanged by the move bookkeeping). -/
def moveKey (st : GS) (b : Board) (sr sc er ec : ℤ) : PosKey :=
  positionKey st (movedBoard st b sr sc er ec)

/-- C7: every completed real (non-simulated) `board_do_move` increments
the repetition counter of exactly the canonical key of the resulting
position, and the game is flagged as a draw by repetition exactly when
that key's count has reached three (the flag, once set, stays set). -/
theorem C7_threefold_repetition_draw (st : GS) (b : Board) (sr sc er ec : ℤ)
    (res : DoRes) (b' : Board) (st' : GS)
    (h : boardDoMoveReal st b sr sc er ec = some (res, b', st')) :
    st'.posCounts (moveKey st b sr sc er ec) =
      st.posCounts (moveKey st b sr sc er ec) + 1 ∧
    (∀ k, k ≠ moveKey st b sr sc er ec → st'.posCounts k = st.posCounts k) ∧
    st'.drawByRepetition =
      (st.drawByRepetition ||
        decide (st.posCounts (moveKey st b sr sc er ec) + 1 ≥ 3)) := by
  unfold boardDoMoveReal at h
  split at h
  · cases h
  · dsimp only at h
    simp only [Option.some.injEq, Prod.mk.injEq] at h
    obtain ⟨-, -, h3⟩ := h
    rw [← h3]
    obtain ⟨-, -, -, hpc, hdr⟩ :=
      activate_fields (movedBoard st b sr sc er ec) (stAfterCore st b sr sc er ec)
    rw [hpc, hdr]
    unfold stAfterCore
    dsimp only
    have hkey : positionKey
        { st with
          halfMoves := st.halfMoves + 1
          recentMoves := st.recentMoves ++ [((b.get sr sc).map Piece.color, sr, sc, er, ec)] }
        (movedBoard st b sr sc er ec) = moveKey st b sr sc er ec := rfl
    rw [hkey]
    split
    · next hge =>
      refine ⟨by dsimp only; rw [if_pos rfl], ?_, ?_⟩
      · intro k hk
        dsimp only
        rw [if_neg hk]
      · dsimp only
        rw [Bool.or_eq_true_iff.mpr (Or.inr (decide_eq_true hge))]
    · next hge =>
      refine ⟨by dsimp only; rw [if_pos rfl], ?_, ?_⟩
      · intro k hk
        dsimp only
        rw [if_neg hk]
      · dsimp only
        rw [decide_eq_false hge, Bool.or_false]

/-- The result of the first real move used in the C7 witness. -/
def c7Res : DoRes × Board × GS :=
  (boardDoMoveReal initGS initialBoard 10 4 8 4).getD
    (⟨none, false, none, ⟨false⟩⟩, initialBoard, initGS)

/-- C7 witness: the first real move from the initial position records its
position key exactly once. -/
theorem C7_witness :
    boardDoMoveReal initGS initialBoard 10 4 8 4 = some c7Res ∧
    c7Res.2.2.posCounts (moveKey initGS initialBoard 10 4 8 4) =
      initGS.posCounts (moveKey initGS initialBoard 10 4 8 4) + 1 :=
  ⟨rfl,
    (C7_threefold_repetition_draw initGS initialBoard 10 4 8 4
      c7Res.1 c7Res.2.1 c7Res.2.2 rfl).1⟩

end Bishops

namespace Bishops

open PColor

/-! ### C8: turn advance and forced-seat selection -/

/-- The `for _ in range(span)` loop of `_advance_turn_index`. -/
def advanceAux (alive : List PColor) : ℕ → ℕ → ℕ
  | 0, idx => idx % 4
  | fuel+1, idx => if turnOrderAt idx ∈ alive then idx % 4 else advanceAux alive fuel ((idx + 1) % 4)

/-- `_advance_turn_index(idx)`: the next index (mod 4) whose seat is
alive, or `idx` itself when nobody is. -/
def advanceTurnIndex (b : Board) (idx : ℕ) : ℕ :=
  let alive := aliveColors b
  if alive.isEmpty then idx else advanceAux alive 4 idx

/-- Clockwise steps from `a` to `b` in `TURN_ORDER` (0 when equal). -/
def clockDist (a b : PColor) : ℕ := (colorIndex b + 4 - colorIndex a) % 4

/-- The scanning loop of `clockwise_from`, over a membership predicate:
the first seat strictly after `color` in clockwise order satisfying
`m`. -/
def clockwiseFromFlags (color : PColor) (m : PColor → Bool) : Option PColor :=
  (List.range 4).findSome? fun i =>
    let nxt := turnOrderAt (colorIndex color + i + 1)
    if m nxt then some nxt else none

/-- `clockwise_from(color, candidates)`. -/
def clockwiseFrom (color : PColor) (candidates : List PColor) : Option PColor :=
  if candidates.isEmpty then none
  else
    match clockwiseFromFlags color (fun x => decide (x ∈ candidates)) with
    | some c => some c
    | none => candidates.head?

/-- The rotation advance of the post-move block: from the mover when it
was forced, else from the stale rotation index. -/
def postMoveTurnIndex (b : Board) (turnI : ℕ) (forced : Option PColor) : ℕ :=
  match forced with
  | none => advanceTurnIndex b (turnI + 1)
  | some f => advanceTurnIndex b (colorIndex f + 1)

/-- The seat skipped by the post-move victim scan: the seat now due by
rotation when the mover was unforced, else the forced mover itself. -/
def postMoveSkip (b : Board) (turnI : ℕ) (forced : Option PColor) : PColor :=
  match forced with
  | none => turnOrderAt (postMoveTurnIndex b turnI forced)
  | some f => f

/-- The post-move turn bookkeeping of the main loop (the block after a
move is applied): advance the rotation index past the mover, collect every
living seat other than the skip seat that stands in check, and make the
first victim clockwise from the skip seat the forced seat. -/
def advanceTurnAndForce (st : GS) (b : Board) (turnI : ℕ) (forced : Option PColor) :
    ℕ × Option PColor :=
  let turnI2 := postMoveTurnIndex b turnI forced
  let skip := postMoveSkip b turnI forced
  let victims := (aliveColors b).filter fun col => col ≠ skip && kingInCheck st b col
  (turnI2, if victims.isEmpty then none else clockwiseFrom skip victims)

/-- Correctness of the clockwise scan over flags: with the start seat
excluded, a hit is a flagged seat of minimal clockwise distance, and a hit
exists whenever any seat is flagged. -/
theorem clockwiseFromFlags_min :
    ∀ (color : PColor) (m : PColor → Bool), m color = false →
      (∀ f, clockwiseFromFlags color m = some f →
        m f = true ∧ f ≠ color ∧ ∀ g, m g = true → clockDist color f ≤ clockDist color g) ∧
      ((∃ g, m g = true) → (clockwiseFromFlags color m).isSome = true) := by
  decide

end Bishops

namespace Bishops

open PColor

/-- C8 (amended): after an applied move the code advances the rotation to
the next living seat (from the mover when it was forced, else from the
stale index) and then scans for checked seats, but it skips the seat now
due to move (in the unforced case), not the mover: no seat is forced
exactly when every living seat other than the skip seat is out of check,
and a forced seat is a living checked seat other than the skip seat of
minimal clockwise distance from the skip seat — not from the mover. -/
theorem C8_forced_seat_selection (st : GS) (b : Board) (turnI : ℕ) (forced : Option PColor) :
    (advanceTurnAndForce st b turnI forced).1 = postMoveTurnIndex b turnI forced ∧
    ((advanceTurnAndForce st b turnI forced).2 = none ↔
      ∀ col ∈ aliveColors b, col ≠ postMoveSkip b turnI forced →
        kingInCheck st b col = false) ∧
    (∀ f, (advanceTurnAndForce st b turnI forced).2 = some f →
      f ∈ aliveColors b ∧ f ≠ postMoveSkip b turnI forced ∧
      kingInCheck st b f = true ∧
      ∀ g ∈ aliveColors b, g ≠ postMoveSkip b turnI forced →
        kingInCheck st b g = true →
        clockDist (postMoveSkip b turnI forced) f ≤
          clockDist (postMoveSkip b turnI forced) g) := by
  set skip := postMoveSkip b turnI forced with hskip
  set victims := (aliveColors b).filter fun col => col ≠ skip && kingInCheck st b col
    with hvictims
  have hmem : ∀ g, g ∈ victims ↔
      (g ∈ aliveColors b ∧ g ≠ skip ∧ kingInCheck st b g = true) := by
    intro g
    rw [hvictims, List.mem_filter]
    simp [and_assoc]
  have hout : (advanceTurnAndForce st b turnI forced).2 =
      if victims.isEmpty then none else clockwiseFrom skip victims := rfl
  have hskipnotvict : (fun x => decide (x ∈ victims)) skip = false := by
    simp only [decide_eq_false_iff_not]
    intro hc
    exact ((hmem skip).mp hc).2.1 rfl
  refine ⟨rfl, ?_, ?_⟩
  · rw [hout]
    by_cases hemp : victims.isEmpty
    · rw [if_pos hemp]
      simp only [true_iff]
      intro col hcol hne
      by_cases hchk : kingInCheck st b col
      · exfalso
        have : col ∈ victims := (hmem col).mpr ⟨hcol, hne, hchk⟩
        rw [List.isEmpty_iff] at hemp
        rw [hemp] at this
        cases this
      · simpa using hchk
    · rw [if_neg hemp]
      constructor
      · intro hnone
        exfalso
        unfold clockwiseFrom at hnone
        rw [if_neg hemp] at hnone
        have hex : ∃ g, (fun x => decide (x ∈ victims)) g = true := by
          rw [List.isEmpty_iff] at hemp
          rcases victims with _ | ⟨v, vs⟩
          · exact absurd rfl hemp
          · exact ⟨v, by simp⟩
        have hsome := ((clockwiseFromFlags_min skip _ hskipnotvict).2 hex)
        rcases hfl : clockwiseFromFlags skip fun x => decide (x ∈ victims) with _ | c
        · rw [hfl] at hsome
          cases hsome
        · rw [hfl] at hnone
          cases hnone
      · intro hall
        exfalso
        rw [List.isEmpty_iff] at hemp
        rcases hv : victims with _ | ⟨v, vs⟩
        · exact hemp hv
        · have hvmem : v ∈ victims := by rw [hv]; exact List.mem_cons_self v vs
          obtain ⟨h1, h2, h3⟩ := (hmem v).mp hvmem
          rw [hall v h1 h2] at h3
          cases h3
  · intro f hf
    rw [hout] at hf
    by_cases hemp : victims.isEmpty
    · rw [if_pos hemp] at hf
      cases hf
    · rw [if_neg hemp] at hf
      unfold clockwiseFrom at hf
      rw [if_neg hemp] at hf
      rcases hfl : clockwiseFromFlags skip fun x => decide (x ∈ victims) with _ | c
      · rw [hfl] at hf
        have hex : ∃ g, (fun x => decide (x ∈ victims)) g = true := by
          rw [List.isEmpty_iff] at hemp
          rcases victims with _ | ⟨v, vs⟩
          · exact absurd rfl hemp
          · exact ⟨v, by simp⟩
        have hsome := ((clockwiseFromFlags_min skip _ hskipnotvict).2 hex)
        rw [hfl] at hsome
        cases hsome
      · rw [hfl] at hf
        rcases hf with ⟨⟩
        obtain ⟨hm, hne, hmin⟩ :=
          ((clockwiseFromFlags_min skip _ hskipnotvict).1 f hfl)
        have hcv : f ∈ victims := by simpa using hm
        obtain ⟨h1, h2, h3⟩ := (hmem f).mp hcv
        refine ⟨h1, h2, h3, ?_⟩
        intro g hg hgne hgchk
        exact hmin g (by simp [(hmem g).mpr ⟨hg, hgne, hgchk⟩])

end Bishops

namespace Bishops

open PColor

/-- A board where White's rook can deliver check to Grey and Black at
once: rook at `(7,5)`, kings White `(11,4)`, Grey `(4,0)`, Black `(4,9)`,
Pink `(6,11)`. -/
def c8Board0 : Board := mkBoard
  [(7, 5, ⟨Kind.R, WHITE, true, 0⟩),
   (11, 4, ⟨Kind.K, WHITE, true, 1⟩),
   (4, 0, ⟨Kind.K, GREY, true, 2⟩),
   (4, 9, ⟨Kind.K, BLACK, true, 3⟩),
   (6, 11, ⟨Kind.K, PINK, true, 4⟩)]

/-- The applied result of White's rook move `(7,5) → (4,5)` on
`c8Board0`. -/
def c8Res : DoRes × Board × GS :=
  (boardDoMoveReal initGS c8Board0 7 5 4 5).getD
    (⟨none, false, none, ⟨false⟩⟩, c8Board0, initGS)

/-- C8 counterexample: White (rotation seat 0, no forced seat) plays a
legal rook move that checks both Grey and Black.  The claim makes Grey —
the earliest checked seat clockwise from the mover — the forced seat, but
the code skips the next rotation seat (Grey) in its victim scan and
forces Black instead, so Black moves next while Grey stands in check. -/
theorem C8_counterexample :
    turnOrderAt 0 = WHITE ∧
    (7, 5, 4, 5) ∈ (legalMovesForPiece initGS c8Board0 7 5).1 ∧
    boardDoMoveReal initGS c8Board0 7 5 4 5 = some c8Res ∧
    aliveColors c8Res.2.1 = [WHITE, GREY, BLACK, PINK] ∧
    kingInCheck c8Res.2.2 c8Res.2.1 GREY = true ∧
    kingInCheck c8Res.2.2 c8Res.2.1 BLACK = true ∧
    clockwiseFrom WHITE [GREY, BLACK] = some GREY ∧
    advanceTurnAndForce c8Res.2.2 c8Res.2.1 0 none = (1, some BLACK) :=
  ⟨by decide, by decide, rfl, by decide, by decide, by decide, by decide, by decide⟩

/-- C8 witness: the amended selection rule instantiated after the
double-check move: Black is living, distinct from the skipped seat, in
check, and of minimal clockwise distance from it. -/
theorem C8_witness :
    (advanceTurnAndForce c8Res.2.2 c8Res.2.1 0 none).2 = some BLACK ∧
    BLACK ∈ aliveColors c8Res.2.1 ∧
    BLACK ≠ postMoveSkip c8Res.2.1 0 none ∧
    kingInCheck c8Res.2.2 c8Res.2.1 BLACK = true :=
  ⟨by decide,
    ((C8_forced_seat_selection c8Res.2.2 c8Res.2.1 0 none).2.2 BLACK (by decide)).1,
    ((C8_forced_seat_selection c8Res.2.2 c8Res.2.1 0 none).2.2 BLACK (by decide)).2.1,
    ((C8_forced_seat_selection c8Res.2.2 c8Res.2.1 0 none).2.2 BLACK (by decide)).2.2.1⟩

end Bishops

namespace Bishops

open PColor

/-! ### C9: the fast AI policy -/

/-- A move credential: its source square holds a piece of the seat and its
destination is pseudo-legal for that piece, on the given board. -/
def LegalSourced (st : GS) (b : Board) (color : PColor) (mv : MoveT) : Prop :=
  ∃ p, b.get mv.1 mv.2.1 = some p ∧ p.color = color ∧
    (mv.2.2.1, mv.2.2.2) ∈ genMoves st b mv.1 mv.2.1

end Bishops

namespace Bishops

open PColor

theorem allLegalStep_spec (st : GS) (b : Board) (color : PColor)
    (hlock : st.chessLock = false) (acc : List MoveT × Board) (rc : ℤ × ℤ)
    (hacc : acc.2 = b) (hmv : ∀ mv ∈ acc.1, LegalSourced st b color mv) :
    (allLegalStep st color acc rc).2 = b ∧
    ∀ mv ∈ (allLegalStep st color acc rc).1, LegalSourced st b color mv := by
  unfold allLegalStep
  rw [hacc]
  rcases hget : b.get rc.1 rc.2 with _ | p
  · exact ⟨hacc, hmv⟩
  · dsimp only
    by_cases hcol : p.color = color
    · rw [if_pos hcol]
      obtain ⟨hb, hsafe⟩ := legalMovesForPiece_spec st b rc.1 rc.2 p hget hlock
      refine ⟨hb, ?_⟩
      intro mv hmvmem
      rcases List.mem_append.mp hmvmem with h | h
      · exact hmv mv h
      · obtain ⟨h1, h2, h3, -⟩ := hsafe mv h
        refine ⟨p, ?_, hcol, ?_⟩
        · rw [h1, h2]; exact hget
        · rw [h1, h2]; exact h3
    · rw [if_neg hcol]
      exact ⟨hacc, hmv⟩

theorem allLegal_fold (st : GS) (b : Board) (color : PColor)
    (hlock : st.chessLock = false) :
    ∀ (cells : List (ℤ × ℤ)) (acc : List MoveT × Board), acc.2 = b →
      (∀ mv ∈ acc.1, LegalSourced st b color mv) →
      (cells.foldl (allLegalStep st color) acc).2 = b ∧
      ∀ mv ∈ (cells.foldl (allLegalStep st color) acc).1, LegalSourced st b color mv := by
  intro cells
  induction cells with
  | nil => intro acc hacc hmv; exact ⟨hacc, hmv⟩
  | cons rc rest ih =>
    intro acc hacc hmv
    rw [List.foldl_cons]
    obtain ⟨h1, h2⟩ := allLegalStep_spec st b color hlock acc rc hacc hmv
    exact ih (allLegalStep st color acc rc) h1 h2

/-- Outside chess lock, `all_legal_moves_for_color` leaves the board as it
found it and every returned move is sourced at a piece of the seat with a
pseudo-legal destination. -/
theorem allLegalMovesForColor_spec (st : GS) (b : Board) (color : PColor)
    (hlock : st.chessLock = false) :
    (allLegalMovesForColor st b color).2 = b ∧
    ∀ mv ∈ (allLegalMovesForColor st b color).1, LegalSourced st b color mv := by
  unfold allLegalMovesForColor
  exact allLegal_fold st b color hlock allCells ([], b) rfl (fun mv hmv => by cases hmv)

end Bishops

namespace Bishops

open PColor

/-- `PIECE_VALUES` / `piece_value(kind)`. -/
def pieceValue : Kind → ℤ
  | Kind.Q => 9 | Kind.R => 5 | Kind.B => 3 | Kind.N => 3 | Kind.P => 1 | Kind.K => 0

/-- `_approach_terms(board, sr, sc, er, ec)`. -/
def approachTerms (b : Board) (sr sc er ec : ℤ) : ℤ × ℤ :=
  let mover := b.get sr sc
  let startD := distToChess sr sc
  let endD := distToChess er ec
  let improve := startD - endD
  let kfactor : ℤ := match mover with
    | some m => if m.kind = Kind.K then 3 else 1
    | none => 1
  (kfactor * improve, -kfactor * (if endD > 0 then 1 else 0))

/-- `move_order_key(m)` of `choose_ai_move_fast`: the
`(capture value, approach, cheap mobility)` ordering key.  The mobility
estimate brackets a simulate/undo around a pseudo-move count at the
landing square; the board component records the bracket's net effect. -/
def moveOrderKey (st : GS) (twoStage : Bool) (color : PColor) (b : Board) (m : MoveT) :
    (ℤ × ℤ × ℤ) × Board :=
  let tgt := b.get m.2.2.1 m.2.2.2
  let capv : ℤ := match tgt with
    | some t => if t.color ≠ color then pieceValue t.kind else 0
    | none => 0
  let ap : ℤ × ℤ := if twoStage then approachTerms b m.1 m.2.1 m.2.2.1 m.2.2.2 else (0, 0)
  match b.get m.1 m.2.1 with
  | none => ((capv, ap.1, 0), b)
  | some _ =>
    let rb := boardDoMoveSim st b m.1 m.2.1 m.2.2.1 m.2.2.2
    let moved := rb.2.get m.2.2.1 m.2.2.2
    let mob : ℤ := if moved.isSome then ((genMoves st rb.2 m.2.2.1 m.2.2.2).length : ℤ) else 0
    let b2 := boardUndoMove rb.2 m.1 m.2.1 m.2.2.1 m.2.2.2 rb.1.cap rb.1.prevHas
      rb.1.prevKind rb.1.effects.promoted
    ((capv, ap.1, mob), b2)

/-- The decorate pass of `legal.sort(key=move_order_key)`: Python computes
the key once per element, in list order, threading the board through each
bracket. -/
def computeKeys (st : GS) (twoStage : Bool) (color : PColor) :
    List MoveT → Board → List (MoveT × (ℤ × ℤ × ℤ)) × Board
  | [], b => ([], b)
  | m :: rest, b =>
    let kb := moveOrderKey st twoStage color b m
    let tail := computeKeys st twoStage color rest kb.2
    ((m, kb.1) :: tail.1, tail.2)

/-- Descending lexicographic comparison of ordering keys
(`reverse=True` over Python tuple order, stable). -/
def keyLexGe (a b : (ℤ × ℤ × ℤ)) : Bool :=
  decide (b.1 < a.1) ||
    (decide (a.1 = b.1) &&
      (decide (b.2.1 < a.2.1) ||
        (decide (a.2.1 = b.2.1) && decide (b.2.2 ≤ a.2.2))))

/-- The environment of a `choose_ai_move_fast` call that the embedding
abstracts: the float heuristic score of a simulated position (the
evaluation, capture/check/mobility/repetition bonuses and the random
tie-break noise, none of which affect the claim), the successive
`pygame.time.get_ticks()` samples, and the `random.choice` index. -/
structure FastAiOracles where
  scoreFn : Board → GS → MoveT → ℚ
  ticksAt : ℕ → ℕ
  rnd : ℕ

/-- `FAST_AI_BUDGET_MS`. -/
def FAST_AI_BUDGET_MS : ℤ := 250

/-- The scoring loop of `choose_ai_move_fast`: per candidate, check the
time budget, simulate, score, undo, and accumulate the best-scoring moves
(ties within `1e-6` collect for the random tie-break). -/
def chooseAiLoop (st : GS) (oracle : FastAiOracles) (start : ℕ) :
    List MoveT → ℕ → List MoveT → ℚ → Board → List MoveT × Board
  | [], _, best, _, b => (best, b)
  | m :: rest, i, best, bestScore, b =>
    if (oracle.ticksAt i : ℤ) - (start : ℤ) > FAST_AI_BUDGET_MS then (best, b)
    else
      let rb := boardDoMoveSim st b m.1 m.2.1 m.2.2.1 m.2.2.2
      let s := oracle.scoreFn rb.2 st m
      let b2 := boardUndoMove rb.2 m.1 m.2.1 m.2.2.1 m.2.2.2 rb.1.cap rb.1.prevHas
        rb.1.prevKind rb.1.effects.promoted
      if s > bestScore then chooseAiLoop st oracle start rest (i+1) [m] s b2
      else if |s - bestScore| < 1/1000000 then
        chooseAiLoop st oracle start rest (i+1) (best ++ [m]) bestScore b2
      else chooseAiLoop st oracle start rest (i+1) best bestScore b2

/-- `choose_ai_move_fast(board, color, two_stage, ..., grace_block_fn, ...)`.
The float scoring, clock and random draw are supplied by `oracle`; the
returned board records the call's net effect on the board object. -/
def chooseAiMoveFast (st : GS) (b : Board) (color : PColor) (twoStage : Bool)
    (graceBlock : Option (MoveT → Bool)) (oracle : FastAiOracles) :
    Option MoveT × Board :=
  let al := allLegalMovesForColor st b color
  let legal0 := al.1
  let b0 := al.2
  if legal0.isEmpty then (none, b0)
  else
    -- pre-lock stay-inside filter for an entered finalist
    let legal1 := if twoStage ∧ (some color = st.finalA ∨ some color = st.finalB) ∧
        st.entered color = true ∧ st.chessLock = false then
      legal0.filter fun m => inChessArea m.2.2.1 m.2.2.2
    else legal0
    -- chess-lock stay-inside filter
    let legal2 := if st.chessLock then
      legal1.filter fun m => inChessArea m.2.2.1 m.2.2.2
    else legal1
    -- grace-block preference
    let legal3 := match graceBlock, twoStage with
      | some gb, true =>
        let nonCheck := legal2.filter fun m => !(gb m)
        if nonCheck.isEmpty then legal2 else nonCheck
      | _, _ => legal2
    if legal3.isEmpty then (none, b0)
    else
      let start := oracle.ticksAt 0
      let keyed := computeKeys st twoStage color legal3 b0
      let sorted := (keyed.1.mergeSort fun x y => keyLexGe x.2 y.2).map fun x => x.1
      let out := chooseAiLoop st oracle start sorted 1 [] (-(10^9 : ℚ)) keyed.2
      (if out.1.isEmpty then none else out.1[oracle.rnd % out.1.length]?, out.2)

end Bishops

namespace Bishops

open PColor

theorem moveOrderKey_board (st : GS) (twoStage : Bool) (color : PColor) (b : Board)
    (m : MoveT) (hlock : st.chessLock = false) (hm : LegalSourced st b color m) :
    (moveOrderKey st twoStage color b m).2 = b := by
  obtain ⟨p, hp, -, hgen⟩ := hm
  unfold moveOrderKey
  rw [hp]
  dsimp only
  exact boardDoMoveSim_undo st b m.1 m.2.1 m.2.2.1 m.2.2.2 p hp
    (genMoves_target st b m.1 m.2.1 p hp _ hgen).1
    (genMoves_ne_src st b m.1 m.2.1 p hp _ hgen)
    (by rw [hlock]; rintro ⟨h, -⟩; cases h)

theorem computeKeys_spec (st : GS) (twoStage : Bool) (color : PColor) (b : Board)
    (hlock : st.chessLock = false) :
    ∀ (ms : List MoveT), (∀ m ∈ ms, LegalSourced st b color m) →
      (computeKeys st twoStage color ms b).2 = b ∧
      ((computeKeys st twoStage color ms b).1.map fun x => x.1) = ms := by
  intro ms
  induction ms with
  | nil => intro _; exact ⟨rfl, rfl⟩
  | cons m rest ih =>
    intro hms
    have hb : (moveOrderKey st twoStage color b m).2 = b :=
      moveOrderKey_board st twoStage color b m hlock (hms m (List.mem_cons_self m rest))
    unfold computeKeys
    dsimp only
    rw [hb]
    obtain ⟨h1, h2⟩ := ih fun m' hm' => hms m' (List.mem_cons_of_mem m hm')
    exact ⟨h1, by rw [List.map_cons, h2]⟩

theorem chooseAiLoop_spec (st : GS) (oracle : FastAiOracles) (start : ℕ) (b : Board)
    (color : PColor) (hlock : st.chessLock = false) :
    ∀ (ms : List MoveT) (i : ℕ) (best : List MoveT) (bestScore : ℚ),
      (∀ m ∈ ms, LegalSourced st b color m) →
      (chooseAiLoop st oracle start ms i best bestScore b).2 = b ∧
      (∀ m ∈ (chooseAiLoop st oracle start ms i best bestScore b).1,
        m ∈ best ∨ m ∈ ms) ∧
      (best ≠ [] → (chooseAiLoop st oracle start ms i best bestScore b).1 ≠ []) := by
  intro ms
  induction ms with
  | nil =>
    intro i best bestScore _
    exact ⟨rfl, fun m hm => Or.inl hm, fun h => h⟩
  | cons m rest ih =>
    intro i best bestScore hms
    obtain ⟨p, hp, -, hgen⟩ := hms m (List.mem_cons_self m rest)
    have hrt : boardUndoMove (boardDoMoveSim st b m.1 m.2.1 m.2.2.1 m.2.2.2).2
        m.1 m.2.1 m.2.2.1 m.2.2.2
        (boardDoMoveSim st b m.1 m.2.1 m.2.2.1 m.2.2.2).1.cap
        (boardDoMoveSim st b m.1 m.2.1 m.2.2.1 m.2.2.2).1.prevHas
        (boardDoMoveSim st b m.1 m.2.1 m.2.2.1 m.2.2.2).1.prevKind
        (boardDoMoveSim st b m.1 m.2.1 m.2.2.1 m.2.2.2).1.effects.promoted = b :=
      boardDoMoveSim_undo st b m.1 m.2.1 m.2.2.1 m.2.2.2 p hp
        (genMoves_target st b m.1 m.2.1 p hp _ hgen).1
        (genMoves_ne_src st b m.1 m.2.1 p hp _ hgen)
        (by rw [hlock]; rintro ⟨h, -⟩; cases h)
    have hrest : ∀ m' ∈ rest, LegalSourced st b color m' :=
      fun m' hm' => hms m' (List.mem_cons_of_mem m hm')
    unfold chooseAiLoop
    by_cases htick : (oracle.ticksAt i : ℤ) - (start : ℤ) > FAST_AI_BUDGET_MS
    · rw [if_pos htick]
      exact ⟨rfl, fun m' hm' => Or.inl hm', fun h => h⟩
    · rw [if_neg htick]
      dsimp only
      rw [hrt]
      by_cases hgt : oracle.scoreFn (boardDoMoveSim st b m.1 m.2.1 m.2.2.1 m.2.2.2).2 st m >
          bestScore
      · rw [if_pos hgt]
        obtain ⟨h1, h2, h3⟩ := ih (i+1) [m]
          (oracle.scoreFn (boardDoMoveSim st b m.1 m.2.1 m.2.2.1 m.2.2.2).2 st m) hrest
        refine ⟨h1, ?_, fun _ => h3 (by simp)⟩
        intro m' hm'
        rcases h2 m' hm' with h | h
        · rcases List.mem_singleton.mp h with rfl
          exact Or.inr (List.mem_cons_self _ _)
        · exact Or.inr (List.mem_cons_of_mem m h)
      · rw [if_neg hgt]
        by_cases heq : |oracle.scoreFn (boardDoMoveSim st b m.1 m.2.1 m.2.2.1 m.2.2.2).2 st m -
            bestScore| < 1/1000000
        · rw [if_pos heq]
          obtain ⟨h1, h2, h3⟩ := ih (i+1) (best ++ [m]) bestScore hrest
          refine ⟨h1, ?_, fun _ => h3 (by simp)⟩
          intro m' hm'
          rcases h2 m' hm' with h | h
          · rcases List.mem_append.mp h with h | h
            · exact Or.inl h
            · rcases List.mem_singleton.mp h with rfl
              exact Or.inr (List.mem_cons_self _ _)
          · exact Or.inr (List.mem_cons_of_mem m h)
        · rw [if_neg heq]
          obtain ⟨h1, h2, h3⟩ := ih (i+1) best bestScore hrest
          refine ⟨h1, ?_, fun hb2 => h3 hb2⟩
          intro m' hm'
          rcases h2 m' hm' with h | h
          · exact Or.inl h
          · exact Or.inr (List.mem_cons_of_mem m h)

theorem chooseAiLoop_first (st : GS) (oracle : FastAiOracles) (start : ℕ) (b : Board)
    (color : PColor) (hlock : st.chessLock = false)
    (hscore : ∀ (b' : Board) (st' : GS) (m : MoveT),
      oracle.scoreFn b' st' m > -(10^9 : ℚ)) :
    ∀ (m : MoveT) (rest : List MoveT) (i : ℕ),
      (∀ m' ∈ m :: rest, LegalSourced st b color m') →
      ¬((oracle.ticksAt i : ℤ) - (start : ℤ) > FAST_AI_BUDGET_MS) →
      (chooseAiLoop st oracle start (m :: rest) i [] (-(10^9 : ℚ)) b).1 ≠ [] := by
  intro m rest i hms htick
  obtain ⟨p, hp, -, hgen⟩ := hms m (List.mem_cons_self m rest)
  have hrt : boardUndoMove (boardDoMoveSim st b m.1 m.2.1 m.2.2.1 m.2.2.2).2
      m.1 m.2.1 m.2.2.1 m.2.2.2
      (boardDoMoveSim st b m.1 m.2.1 m.2.2.1 m.2.2.2).1.cap
      (boardDoMoveSim st b m.1 m.2.1 m.2.2.1 m.2.2.2).1.prevHas
      (boardDoMoveSim st b m.1 m.2.1 m.2.2.1 m.2.2.2).1.prevKind
      (boardDoMoveSim st b m.1 m.2.1 m.2.2.1 m.2.2.2).1.effects.promoted = b :=
    boardDoMoveSim_undo st b m.1 m.2.1 m.2.2.1 m.2.2.2 p hp
      (genMoves_target st b m.1 m.2.1 p hp _ hgen).1
      (genMoves_ne_src st b m.1 m.2.1 p hp _ hgen)
      (by rw [hlock]; rintro ⟨h, -⟩; cases h)
  unfold chooseAiLoop
  rw [if_neg htick]
  dsimp only
  rw [hrt]
  rw [if_pos (hscore (boardDoMoveSim st b m.1 m.2.1 m.2.2.1 m.2.2.2).2 st m)]
  exact (chooseAiLoop_spec st oracle start b color hlock rest (i+1) [m] _
    (fun m' hm' => hms m' (List.mem_cons_of_mem m hm'))).2.2 (by simp)

end Bishops

namespace Bishops

open PColor

/-- The sorted candidate list of `choose_ai_move_fast` (survival phase,
`two_stage=False`): the legal moves, decorated by `move_order_key` and
sorted descending. -/
def c9Sorted (st : GS) (color : PColor) (b : Board) : List MoveT :=
  ((computeKeys st false color (allLegalMovesForColor st b color).1 b).1.mergeSort
    fun x y => keyLexGe x.2 y.2).map fun x => x.1

/-- The scoring loop's result on the sorted candidates. -/
def c9Out (st : GS) (oracle : FastAiOracles) (color : PColor) (b : Board) :
    List MoveT × Board :=
  chooseAiLoop st oracle (oracle.ticksAt 0) (c9Sorted st color b) 1 [] (-(10^9 : ℚ)) b

theorem c9Sorted_mem (st : GS) (color : PColor) (b : Board)
    (hlock : st.chessLock = false) :
    ∀ m ∈ c9Sorted st color b, m ∈ (allLegalMovesForColor st b color).1 := by
  intro m hm
  unfold c9Sorted at hm
  rw [List.mem_map] at hm
  obtain ⟨x, hx, rfl⟩ := hm
  have hx2 : x ∈ (computeKeys st false color (allLegalMovesForColor st b color).1 b).1 :=
    (List.mergeSort_perm _ _).mem_iff.mp hx
  have hmap := (computeKeys_spec st false color b hlock
    (allLegalMovesForColor st b color).1
    (allLegalMovesForColor_spec st b color hlock).2).2
  rw [← hmap]
  exact List.mem_map.mpr ⟨x, hx2, rfl⟩

theorem c9Sorted_length (st : GS) (color : PColor) (b : Board)
    (hlock : st.chessLock = false) :
    (c9Sorted st color b).length = (allLegalMovesForColor st b color).1.length := by
  unfold c9Sorted
  rw [List.length_map, (List.mergeSort_perm _ _).length_eq]
  have hmap := (computeKeys_spec st false color b hlock
    (allLegalMovesForColor st b color).1
    (allLegalMovesForColor_spec st b color hlock).2).2
  conv_rhs => rw [← hmap]
  rw [List.length_map]

set_option maxRecDepth 8000 in
/-- C9: in the survival phase (chess lock inactive, `two_stage=False`) the
fast AI policy `choose_ai_move_fast` is frame-correct and sound: the board
is restored after every evaluation bracket, any returned move belongs to
`all_legal_moves_for_color`, and `None` is returned only when no legal
move exists or the time budget expired before the first candidate was
scored. -/
theorem C9_fast_ai_frame_and_soundness (st : GS) (b : Board) (color : PColor)
    (graceBlock : Option (MoveT → Bool)) (oracle : FastAiOracles)
    (hlock : st.chessLock = false)
    (hscore : ∀ (b' : Board) (st' : GS) (m : MoveT),
      oracle.scoreFn b' st' m > -(10^9 : ℚ)) :
    (chooseAiMoveFast st b color false graceBlock oracle).2 = b ∧
    (∀ m, (chooseAiMoveFast st b color false graceBlock oracle).1 = some m →
      m ∈ (allLegalMovesForColor st b color).1) ∧
    ((chooseAiMoveFast st b color false graceBlock oracle).1 = none →
      (allLegalMovesForColor st b color).1 = [] ∨
      (oracle.ticksAt 1 : ℤ) - (oracle.ticksAt 0 : ℤ) > FAST_AI_BUDGET_MS) := by
  obtain ⟨hb0, hsrc⟩ := allLegalMovesForColor_spec st b color hlock
  by_cases hemp : (allLegalMovesForColor st b color).1.isEmpty = true
  · have hres : chooseAiMoveFast st b color false graceBlock oracle =
        (none, (allLegalMovesForColor st b color).2) := by
      unfold chooseAiMoveFast
      dsimp only
      rw [if_pos hemp]
    refine ⟨by rw [hres]; exact hb0, ?_, ?_⟩
    · intro m hm
      rw [hres] at hm
      cases hm
    · intro _
      exact Or.inl (List.isEmpty_iff.mp hemp)
  · have hKS := computeKeys_spec st false color b hlock
      (allLegalMovesForColor st b color).1 hsrc
    have hms : ∀ m ∈ c9Sorted st color b, LegalSourced st b color m :=
      fun m hm => hsrc m (c9Sorted_mem st color b hlock m hm)
    have hloop := chooseAiLoop_spec st oracle (oracle.ticksAt 0) b color hlock
      (c9Sorted st color b) 1 [] (-(10^9 : ℚ)) hms
    have hres : chooseAiMoveFast st b color false graceBlock oracle =
        ((if (c9Out st oracle color b).1.isEmpty = true then none
          else (c9Out st oracle color b).1[oracle.rnd %
            (c9Out st oracle color b).1.length]?),
         (c9Out st oracle color b).2) := by
      have h1 : ¬((false : Bool) ∧ (some color = st.finalA ∨ some color = st.finalB) ∧
          st.entered color = true ∧ st.chessLock = false) := by simp
      have h2 : ¬(st.chessLock = true) := by simp [hlock]
      unfold chooseAiMoveFast c9Out c9Sorted
      dsimp only
      rw [if_neg hemp, if_neg h1, if_neg h2, hb0]
      cases graceBlock <;> dsimp only <;> rw [if_neg hemp, hKS.1]
    refine ⟨by rw [hres]; exact hloop.1, ?_, ?_⟩
    · intro m hm
      rw [hres] at hm
      dsimp only at hm
      by_cases hie : (c9Out st oracle color b).1.isEmpty = true
      · rw [if_pos hie] at hm
        cases hm
      · rw [if_neg hie] at hm
        have hmem := List.getElem?_eq_some.mp hm
        obtain ⟨hi, rfl⟩ := hmem
        rcases hloop.2.1 _ (List.getElem_mem hi) with h | h
        · cases h
        · exact c9Sorted_mem st color b hlock _ h
    · intro hm
      rw [hres] at hm
      dsimp only at hm
      by_cases hie : (c9Out st oracle color b).1.isEmpty = true
      · by_contra hcon
        push_neg at hcon
        obtain ⟨hne, htick⟩ := hcon
        have hlen : 0 < (c9Sorted st color b).length := by
          rw [c9Sorted_length st color b hlock]
          exact List.length_pos.mpr hne
        obtain ⟨m0, rest, hsplit⟩ : ∃ m0 rest, c9Sorted st color b = m0 :: rest := by
          cases hcs : c9Sorted st color b with
          | nil => rw [hcs] at hlen; cases hlen
          | cons m0 rest => exact ⟨m0, rest, rfl⟩
        have := chooseAiLoop_first st oracle (oracle.ticksAt 0) b color hlock hscore
          m0 rest 1 (hsplit ▸ hms) (not_lt.mpr htick)
        rw [List.isEmpty_iff] at hie
        unfold c9Out at hie
        rw [hsplit] at hie
        exact this hie
      · rw [if_neg hie] at hm
        have hpos : 0 < (c9Out st oracle color b).1.length := by
          rcases Nat.eq_zero_or_pos (c9Out st oracle color b).1.length with h | h
          · exact absurd (by simpa [List.isEmpty_iff] using List.length_eq_zero.mp h) hie
          · exact h
        have hlt : oracle.rnd % (c9Out st oracle color b).1.length <
            (c9Out st oracle color b).1.length := Nat.mod_lt _ hpos
        rw [List.getElem?_eq_getElem hlt] at hm
        cases hm

end Bishops

namespace Bishops

open PColor

/-- A trivial oracle: constant score, a frozen clock, first tie-break pick. -/
def w9Oracle : FastAiOracles := ⟨fun _ _ _ => 0, fun _ => 0, 0⟩

/-- C9 witness: the fast AI call on the initial position with the trivial
oracle leaves the board object unchanged. -/
theorem C9_witness :
    initGS.chessLock = false ∧
    (chooseAiMoveFast initGS initialBoard WHITE false none w9Oracle).2 = initialBoard :=
  ⟨rfl, (C9_fast_ai_frame_and_soundness initGS initialBoard WHITE none w9Oracle rfl
    (fun _ _ _ => by norm_num [w9Oracle])).1⟩

/-- A lone white king outside the 8x8 chess area. -/
def c9Board : Board := mkBoard [(0, 5, ⟨Kind.K, WHITE, false, 0⟩)]

set_option maxRecDepth 8000 in
/-- C9 counterexample: with the chess lock active and the white king outside
the 8x8, legal moves exist, yet `choose_ai_move_fast` returns no move and the
board comes back mutated: the king at (0,5) has been erased by the unmatched
undo inside the legality brackets. -/
theorem C9_counterexample :
    stLock.chessLock = true ∧
    c9Board.get 0 5 = some ⟨Kind.K, WHITE, false, 0⟩ ∧
    (allLegalMovesForColor stLock c9Board WHITE).1 ≠ [] ∧
    (chooseAiMoveFast stLock c9Board WHITE false none w9Oracle).1 = none ∧
    (chooseAiMoveFast stLock c9Board WHITE false none w9Oracle).2.get 0 5 = none := by
  decide

end Bishops
